import Mathlib

/-!
Verification of the abomonation serialization crate (src/lib.rs).

The development shallowly embeds the crate for a fixed 64-bit target
(8-byte words, little-endian), the configuration the crate's own doc
examples run on.  Byte buffers are `List Nat`; machine addresses are
modelled as offsets into the decode buffer (the base address is 0).

The supported types (the closed set of `Abomonation` impls in lib.rs)
are a deep grammar `Ty`; runtime values are `Value`.  A value carries the
contents of its heap allocations (string bytes, vector elements) together
with the raw pointer and capacity words that sit in its in-memory image.
`Vec<T>` and `String` (= `Vec<u8>`) are laid out as the contemporary
rustc layout (pointer, length, capacity), one 8-byte word each; `&[T]`
is (pointer, length).  Rust enum discriminants are compiler internal;
`Option<T>` is modelled as a leading tag byte (0 = None, 1 = Some) padded
to the payload's alignment.  Struct/tuple padding bytes are modelled as
zeros.
-/

set_option maxHeartbeats 1000000

namespace Abomonation

abbrev Bytes := List Nat

/-- Little-endian image of `v` in `w` bytes, as written by a raw memory copy. -/
def toLE : Nat → Nat → Bytes
  | 0, _ => []
  | w + 1, v => v % 256 :: toLE w (v / 256)

/-- Reassemble a little-endian byte list into a number. -/
def fromLE : Bytes → Nat
  | [] => 0
  | b :: bs => b + 256 * fromLE bs

/-- The bytes of `l` from index `a` (inclusive) to `b` (exclusive). -/
def listExtract (l : Bytes) (a b : Nat) : Bytes :=
  List.take (b - a) (List.drop a l)

/-- Overwrite the bytes of `l` starting at index `p` with `xs`, in place:
the length of `l` is preserved and any part of `xs` that would land past
the end of `l` is dropped (in the machine it lands in unused capacity that
later appends overwrite). -/
def listWriteAt (l : Bytes) (p : Nat) (xs : Bytes) : Bytes :=
  List.take p l ++ List.take (l.length - p) xs ++ List.drop (p + xs.length) l

/-- The closed set of types with an `Abomonation` impl in lib.rs. -/
inductive Ty where
  | u8 | u16 | u32 | u64
  | i8 | i16 | i32 | i64
  | f32 | f64
  | boolT
  | pair (t1 t2 : Ty)
  | option (t : Ty)
  | str
  | vec (t : Ty)
  | slice (t : Ty)

/-- Alignment of a type on the 64-bit target. -/
def align_of : Ty → Nat
  | .u8 | .i8 | .boolT => 1
  | .u16 | .i16 => 2
  | .u32 | .i32 | .f32 => 4
  | .u64 | .i64 | .f64 => 8
  | .pair t1 t2 => max (align_of t1) (align_of t2)
  | .option t => max 1 (align_of t)
  | .str => 8
  | .vec _ => 8
  | .slice _ => 8

/-- Round `n` up to a multiple of `a`. -/
def alignUp (n a : Nat) : Nat := a * ((n + a - 1) / a)

/-- Padding between the option tag byte and the payload. -/
def tagPad (t : Ty) : Nat := max 1 (align_of t) - 1

/-- Size in bytes (`mem::size_of`) on the 64-bit target. -/
def size_of : Ty → Nat
  | .u8 | .i8 | .boolT => 1
  | .u16 | .i16 => 2
  | .u32 | .i32 | .f32 => 4
  | .u64 | .i64 | .f64 => 8
  | .pair t1 t2 =>
      alignUp (alignUp (size_of t1) (align_of t2) + size_of t2)
        (max (align_of t1) (align_of t2))
  | .option t => max 1 (align_of t) + size_of t
  | .str => 24
  | .vec _ => 24
  | .slice _ => 16

/-- Byte offset of the second component inside a pair's image. -/
def off2 (t1 t2 : Ty) : Nat := alignUp (size_of t1) (align_of t2)

/-- Is `t` one of the primitive (heap-free, no-op impl) numeric/bool types? -/
def isPrim : Ty → Bool
  | .u8 | .u16 | .u32 | .u64 | .i8 | .i16 | .i32 | .i64
  | .f32 | .f64 | .boolT => true
  | _ => false

/-- Runtime values of the supported types.  `word` is the bit pattern of a
primitive; `vstr`/`vvec`/`vslice` carry the raw pointer word, the capacity
word (for owned containers), and their heap contents (the declared length
is the length of the contents list). -/
inductive Value where
  | word (bits : Nat)
  | vpair (a b : Value)
  | vnone
  | vsome (a : Value)
  | vstr (ptr cap : Nat) (content : Bytes)
  | vvec (ptr cap : Nat) (elems : List Value)
  | vslice (ptr : Nat) (elems : List Value)

/-- The raw in-memory image of a value (the exact bytes a `memcpy` of the
value copies, padding included; padding bytes are modelled as 0). -/
def rawImage : Ty → Value → Bytes
  | .pair t1 t2, .vpair a b =>
      rawImage t1 a ++ List.replicate (off2 t1 t2 - size_of t1) 0 ++
        rawImage t2 b ++
        List.replicate (size_of (.pair t1 t2) - (off2 t1 t2 + size_of t2)) 0
  | .option t1, .vnone => 0 :: List.replicate (size_of (.option t1) - 1) 0
  | .option t1, .vsome a => 1 :: (List.replicate (tagPad t1) 0 ++ rawImage t1 a)
  | .str, .vstr p c content => toLE 8 p ++ toLE 8 content.length ++ toLE 8 c
  | .vec _, .vvec p c es => toLE 8 p ++ toLE 8 es.length ++ toLE 8 c
  | .slice _, .vslice p es => toLE 8 p ++ toLE 8 es.length
  | t, .word bits => toLE (size_of t) bits
  | t, _ => List.replicate (size_of t) 0

/-- The trait operation `embalm` (lib.rs): the per-type final edit that zeroes
pointers in an image.  Primitive types and `Option<T>` use the default
no-op; `(T1, T2)` delegates to both fields; `String` and `Vec<T>` replace
themselves by `from_raw_parts(0, len, len)`; `&[T]` by
`from_raw_parts(0, len)`. -/
def embalm : Ty → Value → Value
  | .pair t1 t2, .vpair a b => .vpair (embalm t1 a) (embalm t2 b)
  | .str, .vstr _ _ content => .vstr 0 content.length content
  | .vec _, .vvec _ _ es => .vvec 0 es.length es
  | .slice _, .vslice _ es => .vslice 0 es
  | _, v => v

/-- The trait operation `entomb` (lib.rs): the bytes appended for a value's owned
heap data.  `Vec<T>` and `&[T]` write the raw images of all elements as one
contiguous block, embalm each copied element in place (equivalently: write
the embalmed elements' images), then entomb each element in turn. -/
def entomb : Ty → Value → Bytes
  | .pair t1 t2, .vpair a b => entomb t1 a ++ entomb t2 b
  | .str, .vstr _ _ content => content
  | .vec t1, .vvec _ _ es =>
      (es.map fun e => rawImage t1 (embalm t1 e)).flatten ++
        (es.map (entomb t1)).flatten
  | .slice t1, .vslice _ es =>
      (es.map fun e => rawImage t1 (embalm t1 e)).flatten ++
        (es.map (entomb t1)).flatten
  | _, _ => []

/-- Reinterpret an image as a value.  Heap contents are not part of the
image: a string read back carries `replicate len 0` as placeholder content
and a vector read back carries placeholder elements (only their count is
recorded); `exhume` is what reconstructs real contents from the buffer. -/
def readValue : Ty → Bytes → Value
  | .pair t1 t2, bs =>
      .vpair (readValue t1 (List.take (size_of t1) bs))
        (readValue t2 (List.take (size_of t2) (List.drop (off2 t1 t2) bs)))
  | .option t1, bs =>
      if bs.headD 0 = 1 then .vsome (readValue t1 (List.drop (1 + tagPad t1) bs))
      else .vnone
  | .str, bs =>
      .vstr (fromLE (List.take 8 bs)) (fromLE (List.take 8 (List.drop 16 bs)))
        (List.replicate (fromLE (List.take 8 (List.drop 8 bs))) 0)
  | .vec _, bs =>
      .vvec (fromLE (List.take 8 bs)) (fromLE (List.take 8 (List.drop 16 bs)))
        (List.replicate (fromLE (List.take 8 (List.drop 8 bs))) (.word 0))
  | .slice _, bs =>
      .vslice (fromLE (List.take 8 bs))
        (List.replicate (fromLE (List.take 8 (List.drop 8 bs))) (.word 0))
  | t, bs => .word (fromLE (List.take (size_of t) bs))

/-- The value obtained by reading back a value's own raw image
(`readValue t (rawImage t v)`): pointer/length/capacity words survive,
heap contents are replaced by placeholders. -/
def skel : Ty → Value → Value
  | .pair t1 t2, .vpair a b => .vpair (skel t1 a) (skel t2 b)
  | .option t1, .vsome a => .vsome (skel t1 a)
  | .str, .vstr p c content => .vstr p c (List.replicate content.length 0)
  | .vec _, .vvec p c es => .vvec p c (List.replicate es.length (.word 0))
  | .slice _, .vslice p es => .vslice p (List.replicate es.length (.word 0))
  | _, v => v

/-- Well-typedness of a value, together with machine realizability on the
64-bit target: all pointer, capacity and length words fit in 64 bits and a
primitive's bit pattern fits its size. -/
def hasTy : Ty → Value → Bool
  | .pair t1 t2, .vpair a b => hasTy t1 a && hasTy t2 b
  | .option _, .vnone => true
  | .option t1, .vsome a => hasTy t1 a
  | .str, .vstr p c content =>
      decide (p < 2 ^ 64) && decide (c < 2 ^ 64) &&
        decide (content.length < 2 ^ 64)
  | .vec t1, .vvec p c es =>
      decide (p < 2 ^ 64) && decide (c < 2 ^ 64) &&
        decide (es.length < 2 ^ 64) && es.all (hasTy t1)
  | .slice t1, .vslice p es =>
      decide (p < 2 ^ 64) && decide (es.length < 2 ^ 64) && es.all (hasTy t1)
  | t, .word bits => isPrim t && decide (bits < 2 ^ (8 * size_of t))
  | _, _ => false

/-- Field bounds sufficient for an image to read back exactly: every
pointer, capacity and length word in the image fits in 64 bits (for a
vector or slice only its own header words matter, since its elements are
not part of its image). -/
def imgWF : Ty → Value → Bool
  | .pair t1 t2, .vpair a b => imgWF t1 a && imgWF t2 b
  | .option _, .vnone => true
  | .option t1, .vsome a => imgWF t1 a
  | .str, .vstr p c content =>
      decide (p < 2 ^ 64) && decide (c < 2 ^ 64) &&
        decide (content.length < 2 ^ 64)
  | .vec _, .vvec p c es =>
      decide (p < 2 ^ 64) && decide (c < 2 ^ 64) && decide (es.length < 2 ^ 64)
  | .slice _, .vslice p es =>
      decide (p < 2 ^ 64) && decide (es.length < 2 ^ 64)
  | t, .word bits => isPrim t && decide (bits < 2 ^ (8 * size_of t))
  | _, _ => false

/-- Result of `exhume`: `Abomonation::exhume` mutates `self` (returned as
the value), possibly writes into the buffer (nested images get their
pointers patched in place), and returns the unconsumed suffix (returned as
the new position), or fails returning the remaining bytes. -/
inductive ExR where
  | ok (v : Value) (buf : Bytes) (pos : Nat)
  | err (buf : Bytes) (pos : Nat)

/-- Result of exhuming a run of elements in place. -/
inductive ExSeq where
  | ok (vs : List Value) (buf : Bytes) (pos : Nat)
  | err (buf : Bytes) (pos : Nat)

/-- The element loop shared by `Vec<T>::exhume` and `<&[T]>::exhume`:
the freshly claimed block holds `n` images of size `sz` starting at
`slotPos`; each is read back as a live element and exhumed against the
remaining bytes at `pos`, threading the shrinking remainder; the mutation
of the element in place is the write-back of its image into its slot. -/
def exhumeSeqGo (sz : Nat) (rdV : Bytes → Value) (img : Value → Bytes)
    (ex : Value → Bytes → Nat → ExR) :
    Nat → Bytes → Nat → Nat → ExSeq
  | 0, buf, _, pos => .ok [] buf pos
  | n + 1, buf, slotPos, pos =>
      match ex (rdV (listExtract buf slotPos (slotPos + sz))) buf pos with
      | .err b p => .err b p
      | .ok e1 buf1 pos1 =>
          match exhumeSeqGo sz rdV img ex n (listWriteAt buf1 slotPos (img e1))
              (slotPos + sz) pos1 with
          | .err b p => .err b p
          | .ok es1 buf2 pos2 => .ok (e1 :: es1) buf2 pos2

/-- The trait operation `exhume` (lib.rs).  Primitive types and `Option<T>` use
the default no-op.  `(T1, T2)` exhumes both fields in order, threading the
remainder.  `String` fails if fewer than `len` bytes remain, otherwise
claims exactly the next `len` bytes as its contents (its pointer becomes
the claim position, capacity = length).  `Vec<T>` computes
`len * size_of::<T>()`, fails if fewer bytes remain, claims that block as
its backing array (pointer = claim position, capacity = length) and
exhumes each element in order; `&[T]` does the same without owning. -/
def exhume : Ty → Value → Bytes → Nat → ExR
  | .pair t1 t2, .vpair a b, buf, pos =>
      match exhume t1 a buf pos with
      | .err b p => .err b p
      | .ok a1 buf1 pos1 =>
          match exhume t2 b buf1 pos1 with
          | .err b p => .err b p
          | .ok b1 buf2 pos2 => .ok (.vpair a1 b1) buf2 pos2
  | .str, .vstr _ _ content, buf, pos =>
      if buf.length < pos + content.length then .err buf pos
      else
        .ok (.vstr pos content.length (listExtract buf pos (pos + content.length)))
          buf (pos + content.length)
  | .vec t1, .vvec _ _ es, buf, pos =>
      if buf.length < pos + es.length * size_of t1 then .err buf pos
      else
        match exhumeSeqGo (size_of t1) (readValue t1) (rawImage t1) (exhume t1)
            es.length buf pos (pos + es.length * size_of t1) with
        | .err b p => .err b p
        | .ok es1 buf1 pos1 => .ok (.vvec pos es.length es1) buf1 pos1
  | .slice t1, .vslice _ es, buf, pos =>
      if buf.length < pos + es.length * size_of t1 then .err buf pos
      else
        match exhumeSeqGo (size_of t1) (readValue t1) (rawImage t1) (exhume t1)
            es.length buf pos (pos + es.length * size_of t1) with
        | .err b p => .err b p
        | .ok es1 buf1 pos1 => .ok (.vslice pos es1) buf1 pos1
  | _, v, buf, pos => .ok v buf pos

/-- The free function `encode` (lib.rs): append the raw image of the `&[T]` fat pointer to
the buffer, then reinterpret the byte at index 0 of the buffer as a
`Vec<T>` and embalm it (the code transmutes `bytes.get_unchecked_mut(0)`,
index 0 of the whole buffer, not the append position), then entomb the
original slice.  With the (ptr, len, cap) layout, that embalm reads the
length word at bytes 8..16 and writes pointer 0, that length, and capacity
= length over bytes 0..24; the part of the write that lands past the
buffer's current length goes into unused capacity and is overwritten by
the subsequent appends, which `listWriteAt` models by clipping. -/
def encode (t : Ty) (slicePtr : Nat) (vs : List Value) (buffer : Bytes) : Bytes :=
  let b1 := buffer ++ rawImage (.slice t) (.vslice slicePtr vs)
  let n := fromLE (listExtract b1 8 16)
  let b2 := listWriteAt b1 0 (toLE 8 0 ++ toLE 8 n ++ toLE 8 n)
  b2 ++ entomb (.slice t) (.vslice slicePtr vs)

/-- Result of `decode`.  `fatal` models the panic of
`bytes.split_at_mut(mem::size_of::<&[T]>())` when the buffer is shorter
than the header: an abort, not an error return. -/
inductive DecR where
  | ok (v : Value) (buf : Bytes)
  | err (buf : Bytes) (pos : Nat)
  | fatal

/-- The free function `decode` (lib.rs): split off the fixed-size `&[T]` header (panicking if
the buffer is shorter), reinterpret it in place, and exhume it against the
remainder; `<&[T]>::exhume` ends by writing the reconstructed fat pointer
back over the header bytes. -/
def decode (t : Ty) (buf : Bytes) : DecR :=
  if buf.length < size_of (.slice t) then .fatal
  else
    match exhume (.slice t) (readValue (.slice t) (listExtract buf 0 (size_of (.slice t))))
        buf (size_of (.slice t)) with
    | .err b p => .err b p
    | .ok v b _ => .ok v (listWriteAt b 0 (rawImage (.slice t) v))

/-- Thread a position-dependent byte producer over a list of values,
advancing the position by each value's entombed length. -/
def threadGo (f : Value → Nat → Bytes) (elenF : Value → Nat) :
    List Value → Nat → Bytes
  | [], _ => []
  | e :: es, pos => f e pos ++ threadGo f elenF es (pos + elenF e)

/-- Thread a position-dependent value transformer over a list of values. -/
def exhumedSeqGo (exd : Value → Nat → Value) (elenF : Value → Nat) :
    List Value → Nat → List Value
  | [], _ => []
  | e :: es, pos => exd e pos :: exhumedSeqGo exd elenF es (pos + elenF e)

/-- The value `decode` reconstructs for an encoded copy of `v` whose owned
data starts at buffer offset `pos`: pointers become buffer offsets,
string/vector contents are recovered from the buffer — except under
`Option`, whose no-op `exhume` leaves only the skeleton read back from the
raw image. -/
def exhumed : Ty → Value → Nat → Value
  | .pair t1 t2, .vpair a b, pos =>
      .vpair (exhumed t1 a pos) (exhumed t2 b (pos + (entomb t1 a).length))
  | .option t1, .vsome a, _ => .vsome (skel t1 a)
  | .str, .vstr _ _ content, pos => .vstr pos content.length content
  | .vec t1, .vvec _ _ es, pos =>
      .vvec pos es.length
        (exhumedSeqGo (exhumed t1) (fun e => (entomb t1 e).length) es
          (pos + es.length * size_of t1))
  | .slice t1, .vslice _ es, pos =>
      .vslice pos
        (exhumedSeqGo (exhumed t1) (fun e => (entomb t1 e).length) es
          (pos + es.length * size_of t1))
  | _, v, _ => v

/-- The bytes of the entombed region of `v` (starting at offset `pos`)
after `exhume` has patched it in place: element images have their pointers
rewritten to buffer offsets, string contents are untouched. -/
def entombAfter : Ty → Value → Nat → Bytes
  | .pair t1 t2, .vpair a b, pos =>
      entombAfter t1 a pos ++ entombAfter t2 b (pos + (entomb t1 a).length)
  | .str, .vstr _ _ content, _ => content
  | .vec t1, .vvec _ _ es, pos =>
      threadGo (fun e p => rawImage t1 (exhumed t1 e p))
          (fun e => (entomb t1 e).length) es (pos + es.length * size_of t1) ++
        threadGo (entombAfter t1) (fun e => (entomb t1 e).length) es
          (pos + es.length * size_of t1)
  | .slice t1, .vslice _ es, pos =>
      threadGo (fun e p => rawImage t1 (exhumed t1 e p))
          (fun e => (entomb t1 e).length) es (pos + es.length * size_of t1) ++
        threadGo (entombAfter t1) (fun e => (entomb t1 e).length) es
          (pos + es.length * size_of t1)
  | _, _, _ => []

/-- Pointwise equality of two lists of values under an element test. -/
def eqSeqGo (eq1 : Value → Value → Bool) : List Value → List Value → Bool
  | [], [] => true
  | a :: as_, b :: bs => eq1 a b && eqSeqGo eq1 as_ bs
  | _, _ => false

/-- Structural equality at a type, the counterpart of Rust `==`: primitives
compare bit patterns, strings compare contents, vectors and slices compare
element-wise; pointers and capacities are ignored. -/
def eqData : Ty → Value → Value → Bool
  | .pair t1 t2, .vpair a b, .vpair a2 b2 => eqData t1 a a2 && eqData t2 b b2
  | .option _, .vnone, .vnone => true
  | .option t1, .vsome a, .vsome b => eqData t1 a b
  | .str, .vstr _ _ c1, .vstr _ _ c2 => c1 == c2
  | .vec t1, .vvec _ _ es1, .vvec _ _ es2 => eqSeqGo (eqData t1) es1 es2
  | .slice t1, .vslice _ es1, .vslice _ es2 => eqSeqGo (eqData t1) es1 es2
  | t, .word b1, .word b2 => isPrim t && b1 == b2
  | _, _, _ => false

/-- Types whose values own no heap data and contain no pointers, so the raw
image alone reproduces them (all three protocol operations are no-ops all
the way down). -/
def heapFree : Ty → Bool
  | .pair t1 t2 => heapFree t1 && heapFree t2
  | .option t1 => heapFree t1
  | .str => false
  | .vec _ => false
  | .slice _ => false
  | _ => true

/-- Types whose encode/decode round-trip reproduces the value: every
`Option` component must wrap a heap-free type, since `Option`'s no-op
protocol drops any owned data of the wrapped value. -/
def roundTrippable : Ty → Bool
  | .pair t1 t2 => roundTrippable t1 && roundTrippable t2
  | .option t1 => heapFree t1
  | .str => true
  | .vec t1 => roundTrippable t1
  | .slice t1 => roundTrippable t1
  | _ => true

/-- True exactly on the insufficient-bytes error return of `decode`. -/
def DecR.isErr : DecR → Bool
  | .err _ _ => true
  | _ => false

/-- True exactly on the insufficient-bytes error return of `exhume`. -/
def ExR.isErr : ExR → Bool
  | .err _ _ => true
  | _ => false

/-- True exactly on the insufficient-bytes error of the element loop. -/
def ExSeq.isErr : ExSeq → Bool
  | .err _ _ => true
  | _ => false

/-- True exactly on the abort outcome of `decode`. -/
def DecR.isFatal : DecR → Bool
  | .fatal => true
  | _ => false

/-- Encode `vs` into a fresh buffer, decode it back, and test element-wise
equality of the decoded sequence against the original; false when decode
does not succeed. -/
def roundTripCheck (t : Ty) (p : Nat) (vs : List Value) : Bool :=
  match decode t (encode t p vs []) with
  | .ok (.vslice _ es) _ => eqSeqGo (eqData t) vs es
  | _ => false

/-- Does decoding a fresh encoding of `vs` return successfully? -/
def decodeOkCheck (t : Ty) (p : Nat) (vs : List Value) : Bool :=
  match decode t (encode t p vs []) with
  | .ok _ _ => true
  | _ => false


/-! ### Basic byte and region lemmas -/

theorem toLE_length (w v : Nat) : (toLE w v).length = w := by
  induction w generalizing v with
  | zero => rfl
  | succ k ih => simp [toLE, ih]

theorem fromLE_toLE (w v : Nat) (h : v < 256 ^ w) : fromLE (toLE w v) = v := by
  induction w generalizing v with
  | zero => simp [Nat.pow_zero] at h; simp [toLE, fromLE]; omega
  | succ k ih =>
    have hdiv : v / 256 < 256 ^ k := by
      rw [Nat.div_lt_iff_lt_mul (by omega : 0 < 256)]
      rw [Nat.pow_succ] at h; omega
    simp only [toLE, fromLE, ih (v / 256) hdiv]
    omega

theorem pow256 (w : Nat) : (256 : Nat) ^ w = 2 ^ (8 * w) := by
  rw [Nat.pow_mul]

theorem drop_two (a b c : Bytes) :
    List.drop (a.length + b.length) (a ++ (b ++ c)) = c := by
  rw [← List.append_assoc, ← List.length_append, List.drop_left]

theorem take_head (a b : Bytes) : List.take a.length (a ++ b) = a :=
  List.take_left a b

theorem listExtract_append (a b c : Bytes) :
    listExtract (a ++ (b ++ c)) a.length (a.length + b.length) = b := by
  simp only [listExtract, List.drop_left, Nat.add_sub_cancel_left]
  exact take_head b c

theorem listWriteAt_append (a b c xs : Bytes) (h : xs.length = b.length) :
    listWriteAt (a ++ (b ++ c)) a.length xs = a ++ (xs ++ c) := by
  simp only [listWriteAt, List.take_left, List.length_append]
  rw [List.take_of_length_le (by omega), h, drop_two, List.append_assoc]

theorem listWriteAt_zero (l xs : Bytes) (h : xs.length ≤ l.length) :
    listWriteAt l 0 xs = xs ++ List.drop xs.length l := by
  simp only [listWriteAt, List.take_zero, Nat.sub_zero, List.nil_append,
    Nat.zero_add]
  rw [List.take_of_length_le h]

theorem listWriteAt_eq_self (a b c : Bytes) :
    listWriteAt (a ++ (b ++ c)) a.length b = a ++ (b ++ c) := by
  rw [listWriteAt_append a b c b rfl]

/-! ### Layout arithmetic -/

theorem align_of_pos (t : Ty) : 1 ≤ align_of t := by
  induction t <;> simp [align_of] <;> omega

theorem le_alignUp (n a : Nat) (h : 1 ≤ a) : n ≤ alignUp n a := by
  have hd := Nat.div_add_mod (n + a - 1) a
  have hm : (n + a - 1) % a < a := Nat.mod_lt _ (by omega)
  simp only [alignUp]
  omega

theorem size_le_off2 (t1 t2 : Ty) : size_of t1 ≤ off2 t1 t2 :=
  le_alignUp _ _ (align_of_pos t2)

theorem off2_add_le (t1 t2 : Ty) :
    off2 t1 t2 + size_of t2 ≤ size_of (.pair t1 t2) := by
  have h1 := align_of_pos t1
  exact le_alignUp _ _ (by simp [Nat.le_max_left, h1] : 1 ≤ max (align_of t1) (align_of t2))

theorem size_of_option_ge (t : Ty) : 1 ≤ size_of (.option t) := by
  have := Nat.le_max_left 1 (align_of t)
  simp [size_of]; omega

theorem size_of_option_eq (t : Ty) :
    size_of (.option t) = 1 + tagPad t + size_of t := by
  have := Nat.le_max_left 1 (align_of t)
  simp only [size_of, tagPad]; omega

/-! ### Image length -/

theorem rawImage_length (t : Ty) : ∀ v : Value, (rawImage t v).length = size_of t := by
  induction t with
  | pair t1 t2 ih1 ih2 =>
    intro v
    have h1 := size_le_off2 t1 t2
    have h2 := off2_add_le t1 t2
    cases v <;> simp [rawImage, toLE_length, ih1, ih2] <;> omega
  | option t1 ih =>
    intro v
    have h1 := size_of_option_ge t1
    have h2 := size_of_option_eq t1
    cases v <;> simp [rawImage, toLE_length, ih] <;> omega
  | str => intro v; cases v <;> simp [rawImage, toLE_length, size_of]
  | vec t1 ih => intro v; cases v <;> simp [rawImage, toLE_length, size_of]
  | slice t1 ih => intro v; cases v <;> simp [rawImage, toLE_length, size_of]
  | u8 => intro v; cases v <;> simp [rawImage, toLE_length, size_of]
  | u16 => intro v; cases v <;> simp [rawImage, toLE_length, size_of]
  | u32 => intro v; cases v <;> simp [rawImage, toLE_length, size_of]
  | u64 => intro v; cases v <;> simp [rawImage, toLE_length, size_of]
  | i8 => intro v; cases v <;> simp [rawImage, toLE_length, size_of]
  | i16 => intro v; cases v <;> simp [rawImage, toLE_length, size_of]
  | i32 => intro v; cases v <;> simp [rawImage, toLE_length, size_of]
  | i64 => intro v; cases v <;> simp [rawImage, toLE_length, size_of]
  | f32 => intro v; cases v <;> simp [rawImage, toLE_length, size_of]
  | f64 => intro v; cases v <;> simp [rawImage, toLE_length, size_of]
  | boolT => intro v; cases v <;> simp [rawImage, toLE_length, size_of]

theorem images_flatten_length (t1 : Ty) (f : Value → Value) (es : List Value) :
    ((es.map fun e => rawImage t1 (f e)).flatten).length = es.length * size_of t1 := by
  induction es with
  | nil => simp
  | cons e es ih => simp [ih, rawImage_length, Nat.succ_mul]; omega


theorem fromLE_toLE64 (v : Nat) (h : v < 2 ^ 64) : fromLE (toLE 8 v) = v := by
  refine fromLE_toLE 8 v ?_
  have : (256 : Nat) ^ 8 = 2 ^ 64 := by norm_num
  omega

theorem take8_word (x : Nat) (rest : Bytes) :
    List.take 8 (toLE 8 x ++ rest) = toLE 8 x := by
  have := take_head (toLE 8 x) rest
  rwa [toLE_length] at this

theorem drop8_word (x : Nat) (rest : Bytes) :
    List.drop 8 (toLE 8 x ++ rest) = rest := by
  have := List.drop_left (toLE 8 x) rest
  rwa [toLE_length] at this

theorem take8_exact (x : Nat) : List.take 8 (toLE 8 x) = toLE 8 x :=
  List.take_of_length_le (by simp [toLE_length])

theorem drop16_two (x y : Nat) (rest : Bytes) :
    List.drop 16 (toLE 8 x ++ (toLE 8 y ++ rest)) = rest := by
  have := drop_two (toLE 8 x) (toLE 8 y) rest
  rwa [toLE_length, toLE_length, show (8 : Nat) + 8 = 16 from rfl] at this

/-! ### Embalm and read-back -/

theorem hasTy_embalm (t : Ty) : ∀ v, hasTy t v = true → hasTy t (embalm t v) = true := by
  induction t with
  | pair t1 t2 ih1 ih2 =>
    intro v hv
    cases v <;> simp [hasTy, isPrim, embalm] at hv ⊢
    exact ⟨ih1 _ hv.1, ih2 _ hv.2⟩
  | option t1 ih =>
    intro v hv
    cases v <;> simp [hasTy, isPrim, embalm] at hv ⊢ <;> exact hv
  | str =>
    intro v hv
    cases v <;> simp [hasTy, isPrim, embalm, Nat.two_pow_pos] at hv ⊢
    tauto
  | vec t1 ih =>
    intro v hv
    cases v <;> simp [hasTy, isPrim, embalm, Nat.two_pow_pos] at hv ⊢
    tauto
  | slice t1 ih =>
    intro v hv
    cases v <;> simp [hasTy, isPrim, embalm, Nat.two_pow_pos] at hv ⊢
    tauto
  | u8 | u16 | u32 | u64 | i8 | i16 | i32 | i64 | f32 | f64 | boolT =>
    intro v hv
    cases v <;> simp [hasTy, isPrim, embalm] at hv ⊢ <;> exact hv


theorem readValue_rawImage (t : Ty) :
    ∀ v, imgWF t v = true → readValue t (rawImage t v) = skel t v := by
  induction t with
  | pair t1 t2 ih1 ih2 =>
    intro v hv
    cases v <;> simp [imgWF, isPrim, and_assoc] at hv
    case vpair a b =>
    obtain ⟨ha, hb⟩ := hv
    simp only [rawImage, readValue, skel, List.append_assoc]
    have htake1 : List.take (size_of t1)
        (rawImage t1 a ++ (List.replicate (off2 t1 t2 - size_of t1) 0 ++
          (rawImage t2 b ++ List.replicate
            (size_of (.pair t1 t2) - (off2 t1 t2 + size_of t2)) 0))) = rawImage t1 a := by
      have := take_head (rawImage t1 a) (List.replicate (off2 t1 t2 - size_of t1) 0 ++
          (rawImage t2 b ++ List.replicate
            (size_of (.pair t1 t2) - (off2 t1 t2 + size_of t2)) 0))
      rwa [rawImage_length] at this
    have hoff : (rawImage t1 a).length +
        (List.replicate (off2 t1 t2 - size_of t1) (0 : Nat)).length = off2 t1 t2 := by
      have := size_le_off2 t1 t2
      simp [rawImage_length]; omega
    have hdrop : List.drop (off2 t1 t2)
        (rawImage t1 a ++ (List.replicate (off2 t1 t2 - size_of t1) 0 ++
          (rawImage t2 b ++ List.replicate
            (size_of (.pair t1 t2) - (off2 t1 t2 + size_of t2)) 0))) =
        rawImage t2 b ++ List.replicate
          (size_of (.pair t1 t2) - (off2 t1 t2 + size_of t2)) 0 := by
      have h2 := drop_two (rawImage t1 a) (List.replicate (off2 t1 t2 - size_of t1) 0)
        (rawImage t2 b ++ List.replicate
          (size_of (.pair t1 t2) - (off2 t1 t2 + size_of t2)) 0)
      rwa [hoff] at h2
    have htake2 : List.take (size_of t2)
        (rawImage t2 b ++ List.replicate
          (size_of (.pair t1 t2) - (off2 t1 t2 + size_of t2)) 0) = rawImage t2 b := by
      have := take_head (rawImage t2 b) (List.replicate
          (size_of (.pair t1 t2) - (off2 t1 t2 + size_of t2)) 0)
      rwa [rawImage_length] at this
    rw [htake1, hdrop, htake2, ih1 a ha, ih2 b hb]
  | option t1 ih =>
    intro v hv
    cases v <;> simp [imgWF, isPrim, and_assoc] at hv
    case vnone =>
      simp [rawImage, readValue, skel]
    case vsome a =>
      simp only [rawImage, readValue, skel]
      have h1 : (((1 : Nat) :: (List.replicate (tagPad t1) 0 ++ rawImage t1 a)).headD 0) = 1 := rfl
      rw [if_pos h1]
      have hd : List.drop (1 + tagPad t1)
          ((1 : Nat) :: (List.replicate (tagPad t1) 0 ++ rawImage t1 a)) = rawImage t1 a := by
        rw [Nat.add_comm, List.drop_succ_cons]
        have := List.drop_left (List.replicate (tagPad t1) (0 : Nat)) (rawImage t1 a)
        rwa [List.length_replicate] at this
      rw [hd, ih a hv]
  | str =>
    intro v hv
    cases v <;> simp [imgWF, isPrim, and_assoc] at hv
    case vstr p c content =>
    obtain ⟨hp, hc, hl⟩ := hv
    simp only [rawImage, readValue, skel, List.append_assoc]
    rw [take8_word, drop8_word, take8_word, drop16_two, take8_exact,
      fromLE_toLE64 p hp, fromLE_toLE64 c hc, fromLE_toLE64 _ hl]
  | vec t1 ih =>
    intro v hv
    cases v <;> simp [imgWF, isPrim, and_assoc] at hv
    case vvec p c es =>
    obtain ⟨hp, hc, hl⟩ := hv
    simp only [rawImage, readValue, skel, List.append_assoc]
    rw [take8_word, drop8_word, take8_word, drop16_two, take8_exact,
      fromLE_toLE64 p hp, fromLE_toLE64 c hc, fromLE_toLE64 _ hl]
  | slice t1 ih =>
    intro v hv
    cases v <;> simp [imgWF, isPrim, and_assoc] at hv
    case vslice p es =>
    obtain ⟨hp, hl⟩ := hv
    simp only [rawImage, readValue, skel, List.append_assoc]
    rw [take8_word, drop8_word, take8_exact, fromLE_toLE64 p hp, fromLE_toLE64 _ hl]
  | u8 | u16 | u32 | u64 | i8 | i16 | i32 | i64 | f32 | f64 | boolT =>
    intro v hv
    cases v <;> simp [imgWF, isPrim, and_assoc] at hv
    case word bits =>
    simp only [rawImage, readValue, skel]
    rw [List.take_of_length_le (by simp [toLE_length, size_of])]
    rw [fromLE_toLE _ _ (by rw [pow256]; simpa [size_of] using hv)]

theorem skel_skel (t : Ty) : ∀ v, skel t (skel t v) = skel t v := by
  induction t with
  | pair t1 t2 ih1 ih2 => intro v; cases v <;> simp [skel, ih1, ih2]
  | option t1 ih => intro v; cases v <;> simp [skel, ih]
  | str => intro v; cases v <;> simp [skel]
  | vec t1 ih => intro v; cases v <;> simp [skel]
  | slice t1 ih => intro v; cases v <;> simp [skel]
  | u8 | u16 | u32 | u64 | i8 | i16 | i32 | i64 | f32 | f64 | boolT =>
    intro v; cases v <;> simp [skel]

theorem skel_heapFree (t : Ty) :
    heapFree t = true → ∀ v, hasTy t v = true → skel t v = v := by
  induction t with
  | pair t1 t2 ih1 ih2 =>
    intro ht v hv
    simp [heapFree] at ht
    cases v <;> simp [hasTy, isPrim, and_assoc] at hv <;> simp [skel]
    exact ⟨ih1 ht.1 _ hv.1, ih2 ht.2 _ hv.2⟩
  | option t1 ih =>
    intro ht v hv
    simp [heapFree] at ht
    cases v <;> simp [hasTy, isPrim, and_assoc] at hv <;> simp [skel]
    exact ih ht _ hv
  | str => intro ht; simp [heapFree] at ht
  | vec t1 ih => intro ht; simp [heapFree] at ht
  | slice t1 ih => intro ht; simp [heapFree] at ht
  | u8 | u16 | u32 | u64 | i8 | i16 | i32 | i64 | f32 | f64 | boolT =>
    intro ht v hv
    cases v <;> simp [hasTy, isPrim, and_assoc] at hv <;> simp [skel]

theorem eqData_refl (t : Ty) : ∀ v, hasTy t v = true → eqData t v v = true := by
  induction t with
  | pair t1 t2 ih1 ih2 =>
    intro v hv
    cases v <;> simp [hasTy, isPrim, and_assoc] at hv <;> simp [eqData]
    exact ⟨ih1 _ hv.1, ih2 _ hv.2⟩
  | option t1 ih =>
    intro v hv
    cases v <;> simp [hasTy, isPrim, and_assoc] at hv <;> simp [eqData]
    exact ih _ hv
  | str => intro v hv; cases v <;> simp [hasTy, isPrim, and_assoc] at hv <;> simp [eqData]
  | vec t1 ih =>
    intro v hv
    cases v <;> simp [hasTy, isPrim, and_assoc] at hv <;> simp [eqData]
    obtain ⟨-, -, -, hall⟩ := hv
    rename_i es
    induction es with
    | nil => simp [eqSeqGo]
    | cons e es ihes =>
      simp only [eqSeqGo, Bool.and_eq_true]
      refine ⟨ih _ (hall e (by simp)), ihes ?_⟩
      intro x hx
      exact hall x (by simp [hx])
  | slice t1 ih =>
    intro v hv
    cases v <;> simp [hasTy, isPrim, and_assoc] at hv <;> simp [eqData]
    obtain ⟨-, -, hall⟩ := hv
    rename_i es
    induction es with
    | nil => simp [eqSeqGo]
    | cons e es ihes =>
      simp only [eqSeqGo, Bool.and_eq_true]
      refine ⟨ih _ (hall e (by simp)), ihes ?_⟩
      intro x hx
      exact hall x (by simp [hx])
  | u8 | u16 | u32 | u64 | i8 | i16 | i32 | i64 | f32 | f64 | boolT =>
    intro v hv
    cases v <;> simp [hasTy, isPrim, and_assoc] at hv <;> simp [eqData, isPrim]

theorem rawImage_skel (t : Ty) :
    ∀ v, hasTy t v = true → rawImage t (skel t v) = rawImage t v := by
  induction t with
  | pair t1 t2 ih1 ih2 =>
    intro v hv
    cases v <;> simp [hasTy, isPrim, and_assoc] at hv
    simp [rawImage, skel, ih1 _ hv.1, ih2 _ hv.2]
  | option t1 ih =>
    intro v hv
    cases v <;> simp [hasTy, isPrim, and_assoc] at hv <;> simp [rawImage, skel]
    exact ih _ hv
  | str => intro v hv; cases v <;> simp [hasTy, isPrim, and_assoc] at hv <;> simp [rawImage, skel]
  | vec t1 ih => intro v hv; cases v <;> simp [hasTy, isPrim, and_assoc] at hv <;> simp [rawImage, skel]
  | slice t1 ih => intro v hv; cases v <;> simp [hasTy, isPrim, and_assoc] at hv <;> simp [rawImage, skel]
  | u8 | u16 | u32 | u64 | i8 | i16 | i32 | i64 | f32 | f64 | boolT =>
    intro v hv; cases v <;> simp [hasTy, isPrim, and_assoc] at hv <;> simp [rawImage, skel]


theorem hasTy_imgWF (t : Ty) : ∀ v, hasTy t v = true → imgWF t v = true := by
  induction t with
  | pair t1 t2 ih1 ih2 =>
    intro v hv
    cases v <;> simp [hasTy, isPrim, and_assoc] at hv <;> simp [imgWF]
    exact ⟨ih1 _ hv.1, ih2 _ hv.2⟩
  | option t1 ih =>
    intro v hv
    cases v <;> simp [hasTy, isPrim, and_assoc] at hv <;> simp [imgWF]
    exact ih _ hv
  | str => intro v hv; cases v <;> simp [hasTy, isPrim, and_assoc] at hv <;> simp [imgWF] <;> tauto
  | vec t1 ih =>
    intro v hv
    cases v <;> simp [hasTy, isPrim, and_assoc] at hv <;> simp [imgWF] <;> tauto
  | slice t1 ih =>
    intro v hv
    cases v <;> simp [hasTy, isPrim, and_assoc] at hv <;> simp [imgWF] <;> tauto
  | u8 | u16 | u32 | u64 | i8 | i16 | i32 | i64 | f32 | f64 | boolT =>
    intro v hv
    cases v <;> simp [hasTy, isPrim, and_assoc] at hv <;> simp [imgWF, isPrim] <;> tauto

theorem imgWF_skel (t : Ty) : ∀ v, imgWF t v = true → imgWF t (skel t v) = true := by
  induction t with
  | pair t1 t2 ih1 ih2 =>
    intro v hv
    cases v <;> simp [imgWF, isPrim, and_assoc] at hv <;> simp [skel, imgWF]
    exact ⟨ih1 _ hv.1, ih2 _ hv.2⟩
  | option t1 ih =>
    intro v hv
    cases v <;> simp [imgWF, isPrim, and_assoc] at hv <;> simp [skel, imgWF]
    exact ih _ hv
  | str =>
    intro v hv
    cases v <;> simp [imgWF, isPrim, and_assoc] at hv <;> simp [skel, imgWF] <;> tauto
  | vec t1 ih =>
    intro v hv
    cases v <;> simp [imgWF, isPrim, and_assoc] at hv <;> simp [skel, imgWF] <;> tauto
  | slice t1 ih =>
    intro v hv
    cases v <;> simp [imgWF, isPrim, and_assoc] at hv <;> simp [skel, imgWF] <;> tauto
  | u8 | u16 | u32 | u64 | i8 | i16 | i32 | i64 | f32 | f64 | boolT =>
    intro v hv
    cases v <;> simp [imgWF, isPrim, and_assoc] at hv <;> simp [skel, imgWF, isPrim] <;> tauto

/-! ### Lengths of decoded regions -/

theorem exhumedSeqGo_length (exd : Value → Nat → Value) (elenF : Value → Nat)
    (es : List Value) : ∀ pos, (exhumedSeqGo exd elenF es pos).length = es.length := by
  induction es with
  | nil => intro pos; simp [exhumedSeqGo]
  | cons e es ih => intro pos; simp [exhumedSeqGo, ih]

theorem threadGo_img_length (t1 : Ty) (g : Value → Nat → Value) (elenF : Value → Nat)
    (es : List Value) : ∀ pos,
    (threadGo (fun e p => rawImage t1 (g e p)) elenF es pos).length =
      es.length * size_of t1 := by
  induction es with
  | nil => intro pos; simp [threadGo]
  | cons e es ih =>
    intro pos
    simp [threadGo, rawImage_length, ih, Nat.succ_mul]
    omega

theorem sum_map_img_length (t1 : Ty) (f : Value → Value) (es : List Value) :
    (List.map (List.length ∘ fun e => rawImage t1 (f e)) es).sum =
      es.length * size_of t1 := by
  induction es with
  | nil => simp
  | cons e es ih =>
    simp only [List.map_cons, List.sum_cons, ih, Function.comp_apply, rawImage_length,
      List.length_cons, Nat.succ_mul]
    omega

theorem entombAfter_length (t : Ty) :
    ∀ (v : Value) (pos : Nat), (entombAfter t v pos).length = (entomb t v).length := by
  induction t with
  | pair t1 t2 ih1 ih2 =>
    intro v pos
    cases v <;> simp [entombAfter, entomb, ih1, ih2]
  | option t1 ih => intro v pos; cases v <;> simp [entombAfter, entomb]
  | str => intro v pos; cases v <;> simp [entombAfter, entomb]
  | vec t1 ih =>
    intro v pos
    cases v <;> simp only [entombAfter, entomb] <;> try simp
    rename_i p c es
    have htails : ∀ (es2 : List Value) (q : Nat),
        (threadGo (entombAfter t1) (fun e => (entomb t1 e).length) es2 q).length =
          ((es2.map (entomb t1)).flatten).length := by
      intro es2
      induction es2 with
      | nil => intro q; simp [threadGo]
      | cons e es2 ihs => intro q; simp [threadGo, ih, ihs]
    simp [threadGo_img_length, images_flatten_length, htails es, sum_map_img_length]
  | slice t1 ih =>
    intro v pos
    cases v <;> simp only [entombAfter, entomb] <;> try simp
    rename_i p es
    have htails : ∀ (es2 : List Value) (q : Nat),
        (threadGo (entombAfter t1) (fun e => (entomb t1 e).length) es2 q).length =
          ((es2.map (entomb t1)).flatten).length := by
      intro es2
      induction es2 with
      | nil => intro q; simp [threadGo]
      | cons e es2 ihs => intro q; simp [threadGo, ih, ihs]
    simp [threadGo_img_length, images_flatten_length, htails es, sum_map_img_length]
  | u8 | u16 | u32 | u64 | i8 | i16 | i32 | i64 | f32 | f64 | boolT =>
    intro v pos; cases v <;> simp [entombAfter, entomb]

theorem imgWF_exhumed (t : Ty) :
    ∀ v, hasTy t v = true → ∀ pos, pos + (entomb t v).length < 2 ^ 64 →
      imgWF t (exhumed t v pos) = true := by
  induction t with
  | pair t1 t2 ih1 ih2 =>
    intro v hv pos hb
    cases v <;> simp [hasTy, isPrim, and_assoc] at hv
    simp only [entomb, List.length_append] at hb
    simp only [exhumed, imgWF, Bool.and_eq_true]
    exact ⟨ih1 _ hv.1 pos (by omega), ih2 _ hv.2 _ (by omega)⟩
  | option t1 ih =>
    intro v hv pos hb
    cases v <;> simp [hasTy, isPrim, and_assoc] at hv <;> simp [exhumed, imgWF]
    exact imgWF_skel t1 _ (hasTy_imgWF t1 _ hv)
  | str =>
    intro v hv pos hb
    cases v <;> simp [hasTy, isPrim, and_assoc] at hv
    obtain ⟨h1, h2, h3⟩ := hv
    simp only [entomb] at hb
    simp [exhumed, imgWF]
    omega
  | vec t1 ih =>
    intro v hv pos hb
    cases v <;> simp [hasTy, isPrim, and_assoc] at hv
    obtain ⟨h1, h2, h3, -⟩ := hv
    simp [exhumed, imgWF, exhumedSeqGo_length]
    omega
  | slice t1 ih =>
    intro v hv pos hb
    cases v <;> simp [hasTy, isPrim, and_assoc] at hv
    obtain ⟨h1, h2, -⟩ := hv
    simp [exhumed, imgWF, exhumedSeqGo_length]
    omega
  | u8 | u16 | u32 | u64 | i8 | i16 | i32 | i64 | f32 | f64 | boolT =>
    intro v hv pos hb
    cases v <;> simp [hasTy, isPrim, and_assoc] at hv <;> simp [exhumed, imgWF, isPrim] <;> tauto

/-! ### Re-encoding a decoded value reproduces the wire bytes -/

theorem exhumed_reencode (t : Ty) :
    ∀ v, hasTy t v = true → ∀ pos,
      rawImage t (embalm t (exhumed t v pos)) = rawImage t (embalm t v) ∧
        entomb t (exhumed t v pos) = entomb t v := by
  induction t with
  | pair t1 t2 ih1 ih2 =>
    intro v hv pos
    cases v <;> simp [hasTy, isPrim, and_assoc] at hv
    rename_i a b
    simp only [exhumed, embalm, rawImage, entomb]
    simp [(ih1 a hv.1 pos).1, (ih1 a hv.1 pos).2, (ih2 b hv.2 _).1, (ih2 b hv.2 _).2]
  | option t1 ih =>
    intro v hv pos
    cases v <;> simp [hasTy, isPrim, and_assoc] at hv
    · simp [exhumed, embalm, entomb]
    · simp [exhumed, embalm, entomb, rawImage, rawImage_skel t1 _ hv]
  | str =>
    intro v hv pos
    cases v <;> simp [hasTy, isPrim, and_assoc] at hv
    simp [exhumed, embalm, rawImage, entomb]
  | vec t1 ih =>
    intro v hv pos
    cases v <;> simp [hasTy, isPrim, and_assoc] at hv
    rename_i p c es
    obtain ⟨-, -, -, hall⟩ := hv
    have hseq : ∀ (es2 : List Value), (∀ e ∈ es2, hasTy t1 e = true) → ∀ q,
        ((exhumedSeqGo (exhumed t1) (fun e => (entomb t1 e).length) es2 q).map
            (fun e => rawImage t1 (embalm t1 e))).flatten =
          ((es2.map fun e => rawImage t1 (embalm t1 e)).flatten) ∧
        ((exhumedSeqGo (exhumed t1) (fun e => (entomb t1 e).length) es2 q).map
            (entomb t1)).flatten = ((es2.map (entomb t1)).flatten) := by
      intro es2 h2
      induction es2 with
      | nil => intro q; simp [exhumedSeqGo]
      | cons e es2 ihs =>
        intro q
        have he := ih e (h2 e (by simp)) q
        have hrest := ihs (fun x hx => h2 x (by simp [hx])) (q + (entomb t1 e).length)
        simp [exhumedSeqGo, he.1, he.2, hrest.1, hrest.2]
    have h := hseq es hall (pos + es.length * size_of t1)
    simp only [exhumed, embalm, rawImage, entomb, exhumedSeqGo_length]
    simp [h.1, h.2]
  | slice t1 ih =>
    intro v hv pos
    cases v <;> simp [hasTy, isPrim, and_assoc] at hv
    rename_i p es
    obtain ⟨-, -, hall⟩ := hv
    have hseq : ∀ (es2 : List Value), (∀ e ∈ es2, hasTy t1 e = true) → ∀ q,
        ((exhumedSeqGo (exhumed t1) (fun e => (entomb t1 e).length) es2 q).map
            (fun e => rawImage t1 (embalm t1 e))).flatten =
          ((es2.map fun e => rawImage t1 (embalm t1 e)).flatten) ∧
        ((exhumedSeqGo (exhumed t1) (fun e => (entomb t1 e).length) es2 q).map
            (entomb t1)).flatten = ((es2.map (entomb t1)).flatten) := by
      intro es2 h2
      induction es2 with
      | nil => intro q; simp [exhumedSeqGo]
      | cons e es2 ihs =>
        intro q
        have he := ih e (h2 e (by simp)) q
        have hrest := ihs (fun x hx => h2 x (by simp [hx])) (q + (entomb t1 e).length)
        simp [exhumedSeqGo, he.1, he.2, hrest.1, hrest.2]
    have h := hseq es hall (pos + es.length * size_of t1)
    simp only [exhumed, embalm, rawImage, entomb, exhumedSeqGo_length]
    simp [h.1, h.2]
  | u8 | u16 | u32 | u64 | i8 | i16 | i32 | i64 | f32 | f64 | boolT =>
    intro v hv pos
    cases v <;> simp [hasTy, isPrim, and_assoc] at hv <;> simp [exhumed]


/-! ### The element loop on a well-formed region: success -/

theorem seqGo_ok (sz : Nat) (rdV : Bytes → Value) (img : Value → Bytes)
    (ex : Value → Bytes → Nat → ExR)
    (imgE : Value → Bytes) (entF : Value → Bytes)
    (exd : Value → Nat → Value) (aft : Value → Nat → Bytes)
    (hsz : ∀ e p, (img (exd e p)).length = sz)
    (hszE : ∀ e, (imgE e).length = sz)
    (haft : ∀ e p, (aft e p).length = (entF e).length) :
    ∀ (es : List Value),
      (∀ e ∈ es, ∀ (pre rest : Bytes),
        ex (rdV (imgE e)) (pre ++ (entF e ++ rest)) pre.length =
          .ok (exd e pre.length) (pre ++ (aft e pre.length ++ rest))
            (pre.length + (entF e).length)) →
      ∀ (A B rest : Bytes) (pos : Nat),
      pos = A.length + (es.map imgE).flatten.length + B.length →
      exhumeSeqGo sz rdV img ex es.length
          (A ++ (es.map imgE).flatten ++ B ++ (es.map entF).flatten ++ rest)
          A.length pos =
        .ok (exhumedSeqGo exd (fun e => (entF e).length) es pos)
          (A ++ threadGo (fun e p => img (exd e p)) (fun e => (entF e).length) es pos ++
            B ++ threadGo aft (fun e => (entF e).length) es pos ++ rest)
          (pos + (es.map entF).flatten.length) := by
  intro es
  induction es with
  | nil =>
    intro hex A B rest pos hpos
    simp [exhumeSeqGo, exhumedSeqGo, threadGo]
  | cons e es ih =>
    intro hex A B rest pos hpos
    have hsze := hszE e
    simp only [List.map_cons, List.flatten_cons, List.length_append] at hpos
    simp only [List.map_cons, List.flatten_cons, List.length_cons, List.append_assoc]
    have hslot : listExtract
        (A ++ (imgE e ++ ((es.map imgE).flatten ++ (B ++ (entF e ++
          ((es.map entF).flatten ++ rest)))))) A.length (A.length + sz) = imgE e := by
      have h := listExtract_append A (imgE e)
        ((es.map imgE).flatten ++ (B ++ (entF e ++ ((es.map entF).flatten ++ rest))))
      rwa [hszE e] at h
    have hexe := hex e (by simp) (A ++ (imgE e ++ ((es.map imgE).flatten ++ B)))
      ((es.map entF).flatten ++ rest)
    simp only [List.append_assoc, List.length_append] at hexe
    have hp1 : A.length + ((imgE e).length + ((es.map imgE).flatten.length + B.length)) =
        pos := by
      omega
    rw [hp1] at hexe
    have hwrite := listWriteAt_append A (imgE e)
      ((es.map imgE).flatten ++ (B ++ (aft e pos ++ ((es.map entF).flatten ++ rest))))
      (img (exd e pos)) (by rw [hsz, hszE])
    have hp2 : (A ++ img (exd e pos)).length = A.length + sz := by
      simp [hsz]
    have hpos' : pos + (entF e).length =
        (A ++ img (exd e pos)).length + (es.map imgE).flatten.length +
          (B ++ aft e pos).length := by
      simp only [List.length_append, hsz, haft]
      omega
    have ihres := ih (fun x hx pre rest2 => hex x (by simp [hx]) pre rest2)
      (A ++ img (exd e pos)) (B ++ aft e pos) rest (pos + (entF e).length) hpos'
    simp only [List.append_assoc, List.length_append, hsz] at ihres
    simp only [exhumeSeqGo, hslot, hexe]
    rw [show A.length + sz = (A ++ img (exd e pos)).length by simp [hsz]] at ihres ⊢
    simp only [List.append_assoc] at hwrite
    rw [hwrite]
    simp only [List.length_append, hsz] at ihres ⊢
    rw [ihres]
    simp only [exhumedSeqGo, threadGo, List.append_assoc, Nat.add_assoc]

/-! ### Exhume consumes exactly what entomb wrote -/

theorem exhume_entomb (t : Ty) :
    ∀ v, hasTy t v = true → ∀ (pre rest : Bytes),
      exhume t (skel t (embalm t v)) (pre ++ (entomb t v ++ rest)) pre.length =
        .ok (exhumed t v pre.length) (pre ++ (entombAfter t v pre.length ++ rest))
          (pre.length + (entomb t v).length) := by
  induction t with
  | pair t1 t2 ih1 ih2 =>
    intro v hv pre rest
    cases v <;> simp [hasTy, isPrim, and_assoc] at hv
    rename_i a b
    simp only [embalm, skel, entomb, exhumed, entombAfter, exhume, List.append_assoc]
    have h1 := ih1 a hv.1 pre (entomb t2 b ++ rest)
    simp only [List.append_assoc] at h1
    have h2 := ih2 b hv.2 (pre ++ entombAfter t1 a pre.length) rest
    have hlen1 : (pre ++ entombAfter t1 a pre.length).length =
        pre.length + (entomb t1 a).length := by
      simp [entombAfter_length]
    simp only [List.append_assoc, hlen1] at h2
    simp only [h1, h2, List.length_append, Nat.add_assoc]
  | option t1 ih =>
    intro v hv pre rest
    cases v <;> simp [hasTy, isPrim, and_assoc] at hv <;>
      simp [embalm, skel, entomb, exhumed, entombAfter, exhume]
  | str =>
    intro v hv pre rest
    cases v <;> simp [hasTy, isPrim, and_assoc] at hv
    rename_i p c content
    simp only [embalm, skel, entomb, exhumed, entombAfter, exhume, List.length_replicate,
      List.length_append]
    rw [if_neg (by omega)]
    have hx := listExtract_append pre content rest
    simp only [List.append_assoc] at hx
    rw [hx]
  | vec t1 ih =>
    intro v hv pre rest
    cases v <;> simp [hasTy, isPrim, and_assoc] at hv
    rename_i p c es
    obtain ⟨-, -, -, hall⟩ := hv
    simp only [embalm, skel, entomb, exhumed, entombAfter, exhume, List.length_replicate,
      List.append_assoc]
    have himgs : ((es.map fun e => rawImage t1 (embalm t1 e)).flatten).length =
        es.length * size_of t1 := images_flatten_length t1 _ es
    rw [if_neg (by simp only [List.length_append, himgs]; omega)]
    have hex : ∀ e ∈ es, ∀ (pre2 rest2 : Bytes),
        exhume t1 (readValue t1 (rawImage t1 (embalm t1 e))) (pre2 ++ (entomb t1 e ++ rest2))
            pre2.length =
          .ok (exhumed t1 e pre2.length) (pre2 ++ (entombAfter t1 e pre2.length ++ rest2))
            (pre2.length + (entomb t1 e).length) := by
      intro e he pre2 rest2
      rw [readValue_rawImage t1 _ (hasTy_imgWF t1 _ (hasTy_embalm t1 _ (hall e he)))]
      exact ih e (hall e he) pre2 rest2
    have hseq := seqGo_ok (size_of t1) (readValue t1) (rawImage t1) (exhume t1)
      (fun e => rawImage t1 (embalm t1 e)) (entomb t1) (exhumed t1) (entombAfter t1)
      (fun e p => rawImage_length t1 _) (fun e => rawImage_length t1 _)
      (fun e p => entombAfter_length t1 e p) es hex pre [] rest
      (pre.length + es.length * size_of t1) (by simp [himgs])
    simp only [List.append_assoc, List.append_nil, List.nil_append] at hseq
    simp only [hseq, List.length_append, himgs, Nat.add_assoc]
  | slice t1 ih =>
    intro v hv pre rest
    cases v <;> simp [hasTy, isPrim, and_assoc] at hv
    rename_i p es
    obtain ⟨-, -, hall⟩ := hv
    simp only [embalm, skel, entomb, exhumed, entombAfter, exhume, List.length_replicate,
      List.append_assoc]
    have himgs : ((es.map fun e => rawImage t1 (embalm t1 e)).flatten).length =
        es.length * size_of t1 := images_flatten_length t1 _ es
    rw [if_neg (by simp only [List.length_append, himgs]; omega)]
    have hex : ∀ e ∈ es, ∀ (pre2 rest2 : Bytes),
        exhume t1 (readValue t1 (rawImage t1 (embalm t1 e))) (pre2 ++ (entomb t1 e ++ rest2))
            pre2.length =
          .ok (exhumed t1 e pre2.length) (pre2 ++ (entombAfter t1 e pre2.length ++ rest2))
            (pre2.length + (entomb t1 e).length) := by
      intro e he pre2 rest2
      rw [readValue_rawImage t1 _ (hasTy_imgWF t1 _ (hasTy_embalm t1 _ (hall e he)))]
      exact ih e (hall e he) pre2 rest2
    have hseq := seqGo_ok (size_of t1) (readValue t1) (rawImage t1) (exhume t1)
      (fun e => rawImage t1 (embalm t1 e)) (entomb t1) (exhumed t1) (entombAfter t1)
      (fun e p => rawImage_length t1 _) (fun e => rawImage_length t1 _)
      (fun e p => entombAfter_length t1 e p) es hex pre [] rest
      (pre.length + es.length * size_of t1) (by simp [himgs])
    simp only [List.append_assoc, List.append_nil, List.nil_append] at hseq
    simp only [hseq, List.length_append, himgs, Nat.add_assoc]
  | u8 | u16 | u32 | u64 | i8 | i16 | i32 | i64 | f32 | f64 | boolT =>
    intro v hv pre rest
    cases v <;> simp [hasTy, isPrim, and_assoc] at hv <;>
      simp [embalm, skel, entomb, exhumed, entombAfter, exhume]

/-! ### The element loop on a truncated region: failure -/

theorem seqGo_err (sz : Nat) (rdV : Bytes → Value) (img : Value → Bytes)
    (ex : Value → Bytes → Nat → ExR)
    (imgE : Value → Bytes) (entF : Value → Bytes)
    (exd : Value → Nat → Value) (aft : Value → Nat → Bytes)
    (hsz : ∀ e p, (img (exd e p)).length = sz)
    (hszE : ∀ e, (imgE e).length = sz)
    (haft : ∀ e p, (aft e p).length = (entF e).length) :
    ∀ (es : List Value),
      (∀ e ∈ es, ∀ (pre rest : Bytes),
        ex (rdV (imgE e)) (pre ++ (entF e ++ rest)) pre.length =
          .ok (exd e pre.length) (pre ++ (aft e pre.length ++ rest))
            (pre.length + (entF e).length)) →
      (∀ e ∈ es, ∀ (pre : Bytes) (k : Nat), k < (entF e).length →
        (ex (rdV (imgE e)) (pre ++ (entF e).take k) pre.length).isErr = true) →
      ∀ (A B : Bytes) (pos k : Nat),
      pos = A.length + (es.map imgE).flatten.length + B.length →
      k < (es.map entF).flatten.length →
      (exhumeSeqGo sz rdV img ex es.length
          (A ++ (es.map imgE).flatten ++ B ++ ((es.map entF).flatten).take k)
          A.length pos).isErr = true := by
  intro es
  induction es with
  | nil =>
    intro hok herr A B pos k hpos hk
    simp at hk
  | cons e es ih =>
    intro hok herr A B pos k hpos hk
    have hsze := hszE e
    simp only [List.map_cons, List.flatten_cons, List.length_append] at hpos hk
    simp only [List.map_cons, List.flatten_cons, List.length_cons, List.append_assoc]
    by_cases hcase : k < (entF e).length
    · -- the head element's owned data is truncated
      rw [List.take_append_of_le_length (by omega)]
      have hslot : listExtract
          (A ++ (imgE e ++ ((es.map imgE).flatten ++ (B ++ (entF e).take k))))
          A.length (A.length + sz) = imgE e := by
        have h := listExtract_append A (imgE e)
          ((es.map imgE).flatten ++ (B ++ (entF e).take k))
        rwa [hszE e] at h
      have herre := herr e (by simp) (A ++ (imgE e ++ ((es.map imgE).flatten ++ B))) k hcase
      simp only [List.append_assoc, List.length_append] at herre
      have hp1 : A.length + ((imgE e).length + ((es.map imgE).flatten.length + B.length)) =
          pos := by omega
      rw [hp1] at herre
      simp only [exhumeSeqGo, hslot]
      rcases hc : ex (rdV (imgE e))
          (A ++ (imgE e ++ ((es.map imgE).flatten ++ (B ++ (entF e).take k)))) pos with
        _ | _
      · rw [hc] at herre
        simp [ExR.isErr] at herre
      · simp [ExSeq.isErr]
    · -- the head element succeeds; the truncation point is further right
      rw [List.take_append_eq_append_take,
        List.take_of_length_le (by omega : (entF e).length ≤ k)]
      have hslot : listExtract
          (A ++ (imgE e ++ ((es.map imgE).flatten ++ (B ++ (entF e ++
            ((es.map entF).flatten).take (k - (entF e).length))))))
          A.length (A.length + sz) = imgE e := by
        have h := listExtract_append A (imgE e)
          ((es.map imgE).flatten ++ (B ++ (entF e ++
            ((es.map entF).flatten).take (k - (entF e).length))))
        rwa [hszE e] at h
      have hexe := hok e (by simp) (A ++ (imgE e ++ ((es.map imgE).flatten ++ B)))
        (((es.map entF).flatten).take (k - (entF e).length))
      simp only [List.append_assoc, List.length_append] at hexe
      have hp1 : A.length + ((imgE e).length + ((es.map imgE).flatten.length + B.length)) =
          pos := by omega
      rw [hp1] at hexe
      have hwrite := listWriteAt_append A (imgE e)
        ((es.map imgE).flatten ++ (B ++ (aft e pos ++
          ((es.map entF).flatten).take (k - (entF e).length))))
        (img (exd e pos)) (by rw [hsz, hszE])
      simp only [List.append_assoc] at hwrite
      have hpos' : pos + (entF e).length =
          (A ++ img (exd e pos)).length + (es.map imgE).flatten.length +
            (B ++ aft e pos).length := by
        simp only [List.length_append, hsz, haft]
        omega
      have ihres := ih (fun x hx pre rest2 => hok x (by simp [hx]) pre rest2)
        (fun x hx pre k2 hk2 => herr x (by simp [hx]) pre k2 hk2)
        (A ++ img (exd e pos)) (B ++ aft e pos) (pos + (entF e).length)
        (k - (entF e).length) hpos' (by omega)
      simp only [List.append_assoc, List.length_append, hsz] at ihres
      simp only [exhumeSeqGo, hslot, hexe]
      rw [show A.length + sz = (A ++ img (exd e pos)).length by simp [hsz]]
      rw [hwrite]
      simp only [List.length_append, hsz] at ihres ⊢
      rcases hc : exhumeSeqGo sz rdV img ex es.length
          (A ++ (img (exd e pos) ++ ((es.map imgE).flatten ++ (B ++ (aft e pos ++
            ((es.map entF).flatten).take (k - (entF e).length))))))
          (A.length + sz) (pos + (entF e).length) with _ | _
      · rw [hc] at ihres
        simp [ExSeq.isErr] at ihres
      · simp [ExSeq.isErr]

/-! ### Exhume on a truncated region fails -/

theorem exhume_trunc (t : Ty) :
    ∀ v, hasTy t v = true → ∀ (pre : Bytes) (k : Nat), k < (entomb t v).length →
      (exhume t (skel t (embalm t v)) (pre ++ (entomb t v).take k) pre.length).isErr
        = true := by
  induction t with
  | pair t1 t2 ih1 ih2 =>
    intro v hv pre k hk
    cases v <;> simp [hasTy, isPrim, and_assoc] at hv <;> simp [entomb] at hk
    rename_i a b
    simp only [embalm, skel, entomb, exhume]
    by_cases hcase : k < (entomb t1 a).length
    · rw [List.take_append_of_le_length (by omega)]
      have h1 := ih1 a hv.1 pre k hcase
      rcases hc : exhume t1 (skel t1 (embalm t1 a)) (pre ++ ((entomb t1 a).take k))
          pre.length with _ | _
      · rw [hc] at h1
        simp [ExR.isErr] at h1
      · simp [ExR.isErr]
    · rw [List.take_append_eq_append_take,
        List.take_of_length_le (by omega : (entomb t1 a).length ≤ k)]
      have h1 := exhume_entomb t1 a hv.1 pre ((entomb t2 b).take (k - (entomb t1 a).length))
      simp only [List.append_assoc] at h1
      simp only [h1]
      have h2 := ih2 b hv.2 (pre ++ entombAfter t1 a pre.length)
        (k - (entomb t1 a).length) (by omega)
      have hlen1 : (pre ++ entombAfter t1 a pre.length).length =
          pre.length + (entomb t1 a).length := by
        simp [entombAfter_length]
      simp only [List.append_assoc, hlen1] at h2
      rcases hc : exhume t2 (skel t2 (embalm t2 b))
          (pre ++ (entombAfter t1 a pre.length ++
            ((entomb t2 b).take (k - (entomb t1 a).length))))
          (pre.length + (entomb t1 a).length) with _ | _
      · rw [hc] at h2
        simp [ExR.isErr] at h2
      · simp [ExR.isErr]
  | option t1 ih =>
    intro v hv pre k hk
    cases v <;> simp [hasTy, isPrim, and_assoc] at hv <;> simp [entomb] at hk
  | str =>
    intro v hv pre k hk
    cases v <;> simp [hasTy, isPrim, and_assoc] at hv <;> simp [entomb] at hk
    rename_i p c content
    simp only [embalm, skel, entomb, exhume, List.length_replicate, List.length_append,
      List.length_take]
    rw [if_pos (by omega)]
    simp [ExR.isErr]
  | vec t1 ih =>
    intro v hv pre k hk
    cases v <;> simp [hasTy, isPrim, and_assoc] at hv <;> simp [entomb] at hk
    rename_i p c es
    obtain ⟨-, -, -, hall⟩ := hv
    have himgs : ((es.map fun e => rawImage t1 (embalm t1 e)).flatten).length =
        es.length * size_of t1 := images_flatten_length t1 _ es
    simp only [embalm, skel, entomb, exhume, List.length_replicate, List.append_assoc]
    by_cases hcase : k < es.length * size_of t1
    · rw [if_pos (by simp only [List.length_append, List.length_take]; omega)]
      simp [ExR.isErr]
    · rw [List.take_append_eq_append_take, himgs,
        List.take_of_length_le (by omega : ((es.map fun e =>
          rawImage t1 (embalm t1 e)).flatten).length ≤ k)]
      rw [if_neg (by simp only [List.length_append, List.length_take, himgs]; omega)]
      have hok : ∀ e ∈ es, ∀ (pre2 rest2 : Bytes),
          exhume t1 (readValue t1 (rawImage t1 (embalm t1 e)))
              (pre2 ++ (entomb t1 e ++ rest2)) pre2.length =
            .ok (exhumed t1 e pre2.length) (pre2 ++ (entombAfter t1 e pre2.length ++ rest2))
              (pre2.length + (entomb t1 e).length) := by
        intro e he pre2 rest2
        rw [readValue_rawImage t1 _ (hasTy_imgWF t1 _ (hasTy_embalm t1 _ (hall e he)))]
        exact exhume_entomb t1 e (hall e he) pre2 rest2
      have herr : ∀ e ∈ es, ∀ (pre2 : Bytes) (k2 : Nat), k2 < (entomb t1 e).length →
          (exhume t1 (readValue t1 (rawImage t1 (embalm t1 e)))
            (pre2 ++ (entomb t1 e).take k2) pre2.length).isErr = true := by
        intro e he pre2 k2 hk2
        rw [readValue_rawImage t1 _ (hasTy_imgWF t1 _ (hasTy_embalm t1 _ (hall e he)))]
        exact ih e (hall e he) pre2 k2 hk2
      have hseq := seqGo_err (size_of t1) (readValue t1) (rawImage t1) (exhume t1)
        (fun e => rawImage t1 (embalm t1 e)) (entomb t1) (exhumed t1) (entombAfter t1)
        (fun e p => rawImage_length t1 _) (fun e => rawImage_length t1 _)
        (fun e p => entombAfter_length t1 e p) es hok herr pre []
        (pre.length + es.length * size_of t1) (k - es.length * size_of t1)
        (by simp [himgs])
        (by
          have hs := sum_map_img_length t1 (embalm t1) es
          simp only [List.length_flatten, List.map_map]
          omega)
      simp only [List.append_assoc, List.append_nil, List.nil_append] at hseq
      rcases hc : exhumeSeqGo (size_of t1) (readValue t1) (rawImage t1) (exhume t1)
          es.length
          (pre ++ ((es.map fun e => rawImage t1 (embalm t1 e)).flatten ++
            ((es.map (entomb t1)).flatten).take (k - es.length * size_of t1)))
          pre.length (pre.length + es.length * size_of t1) with _ | _
      · rw [hc] at hseq
        simp [ExSeq.isErr] at hseq
      · simp [ExR.isErr]
  | slice t1 ih =>
    intro v hv pre k hk
    cases v <;> simp [hasTy, isPrim, and_assoc] at hv <;> simp [entomb] at hk
    rename_i p es
    obtain ⟨-, -, hall⟩ := hv
    have himgs : ((es.map fun e => rawImage t1 (embalm t1 e)).flatten).length =
        es.length * size_of t1 := images_flatten_length t1 _ es
    simp only [embalm, skel, entomb, exhume, List.length_replicate, List.append_assoc]
    by_cases hcase : k < es.length * size_of t1
    · rw [if_pos (by simp only [List.length_append, List.length_take]; omega)]
      simp [ExR.isErr]
    · rw [List.take_append_eq_append_take, himgs,
        List.take_of_length_le (by omega : ((es.map fun e =>
          rawImage t1 (embalm t1 e)).flatten).length ≤ k)]
      rw [if_neg (by simp only [List.length_append, List.length_take, himgs]; omega)]
      have hok : ∀ e ∈ es, ∀ (pre2 rest2 : Bytes),
          exhume t1 (readValue t1 (rawImage t1 (embalm t1 e)))
              (pre2 ++ (entomb t1 e ++ rest2)) pre2.length =
            .ok (exhumed t1 e pre2.length) (pre2 ++ (entombAfter t1 e pre2.length ++ rest2))
              (pre2.length + (entomb t1 e).length) := by
        intro e he pre2 rest2
        rw [readValue_rawImage t1 _ (hasTy_imgWF t1 _ (hasTy_embalm t1 _ (hall e he)))]
        exact exhume_entomb t1 e (hall e he) pre2 rest2
      have herr : ∀ e ∈ es, ∀ (pre2 : Bytes) (k2 : Nat), k2 < (entomb t1 e).length →
          (exhume t1 (readValue t1 (rawImage t1 (embalm t1 e)))
            (pre2 ++ (entomb t1 e).take k2) pre2.length).isErr = true := by
        intro e he pre2 k2 hk2
        rw [readValue_rawImage t1 _ (hasTy_imgWF t1 _ (hasTy_embalm t1 _ (hall e he)))]
        exact ih e (hall e he) pre2 k2 hk2
      have hseq := seqGo_err (size_of t1) (readValue t1) (rawImage t1) (exhume t1)
        (fun e => rawImage t1 (embalm t1 e)) (entomb t1) (exhumed t1) (entombAfter t1)
        (fun e p => rawImage_length t1 _) (fun e => rawImage_length t1 _)
        (fun e p => entombAfter_length t1 e p) es hok herr pre []
        (pre.length + es.length * size_of t1) (k - es.length * size_of t1)
        (by simp [himgs])
        (by
          have hs := sum_map_img_length t1 (embalm t1) es
          simp only [List.length_flatten, List.map_map]
          omega)
      simp only [List.append_assoc, List.append_nil, List.nil_append] at hseq
      rcases hc : exhumeSeqGo (size_of t1) (readValue t1) (rawImage t1) (exhume t1)
          es.length
          (pre ++ ((es.map fun e => rawImage t1 (embalm t1 e)).flatten ++
            ((es.map (entomb t1)).flatten).take (k - es.length * size_of t1)))
          pre.length (pre.length + es.length * size_of t1) with _ | _
      · rw [hc] at hseq
        simp [ExSeq.isErr] at hseq
      · simp [ExR.isErr]
  | u8 | u16 | u32 | u64 | i8 | i16 | i32 | i64 | f32 | f64 | boolT =>
    intro v hv pre k hk
    cases v <;> simp [hasTy, isPrim, and_assoc] at hv <;> simp [entomb] at hk

/-! ### Decoded values are element-wise equal to the originals -/

theorem eqData_exhumed (t : Ty) :
    roundTrippable t = true → ∀ v, hasTy t v = true → ∀ pos,
      eqData t v (exhumed t v pos) = true := by
  induction t with
  | pair t1 t2 ih1 ih2 =>
    intro hrt v hv pos
    simp [roundTrippable] at hrt
    cases v <;> simp [hasTy, isPrim, and_assoc] at hv
    simp only [exhumed, eqData, Bool.and_eq_true]
    exact ⟨ih1 hrt.1 _ hv.1 pos, ih2 hrt.2 _ hv.2 _⟩
  | option t1 ih =>
    intro hrt v hv pos
    simp [roundTrippable] at hrt
    cases v <;> simp [hasTy, isPrim, and_assoc] at hv <;> simp [exhumed, eqData]
    rw [skel_heapFree t1 hrt _ hv]
    exact eqData_refl t1 _ hv
  | str =>
    intro hrt v hv pos
    cases v <;> simp [hasTy, isPrim, and_assoc] at hv <;> simp [exhumed, eqData]
  | vec t1 ih =>
    intro hrt v hv pos
    simp [roundTrippable] at hrt
    cases v <;> simp [hasTy, isPrim, and_assoc] at hv
    rename_i p c es
    obtain ⟨-, -, -, hall⟩ := hv
    simp only [exhumed, eqData]
    have hseq : ∀ (es2 : List Value), (∀ e ∈ es2, hasTy t1 e = true) → ∀ q,
        eqSeqGo (eqData t1) es2
          (exhumedSeqGo (exhumed t1) (fun e => (entomb t1 e).length) es2 q) = true := by
      intro es2 h2
      induction es2 with
      | nil => intro q; simp [exhumedSeqGo, eqSeqGo]
      | cons e es2 ihs =>
        intro q
        simp only [exhumedSeqGo, eqSeqGo, Bool.and_eq_true]
        exact ⟨ih hrt _ (h2 e (by simp)) q, ihs (fun x hx => h2 x (by simp [hx])) _⟩
    exact hseq es hall _
  | slice t1 ih =>
    intro hrt v hv pos
    simp [roundTrippable] at hrt
    cases v <;> simp [hasTy, isPrim, and_assoc] at hv
    rename_i p es
    obtain ⟨-, -, hall⟩ := hv
    simp only [exhumed, eqData]
    have hseq : ∀ (es2 : List Value), (∀ e ∈ es2, hasTy t1 e = true) → ∀ q,
        eqSeqGo (eqData t1) es2
          (exhumedSeqGo (exhumed t1) (fun e => (entomb t1 e).length) es2 q) = true := by
      intro es2 h2
      induction es2 with
      | nil => intro q; simp [exhumedSeqGo, eqSeqGo]
      | cons e es2 ihs =>
        intro q
        simp only [exhumedSeqGo, eqSeqGo, Bool.and_eq_true]
        exact ⟨ih hrt _ (h2 e (by simp)) q, ihs (fun x hx => h2 x (by simp [hx])) _⟩
    exact hseq es hall _
  | u8 | u16 | u32 | u64 | i8 | i16 | i32 | i64 | f32 | f64 | boolT =>
    intro hrt v hv pos
    cases v <;> simp [hasTy, isPrim, and_assoc] at hv <;> simp [exhumed, eqData, isPrim]

/-! ### Encoding into a fresh buffer -/

theorem encode_nil (t : Ty) (p : Nat) (vs : List Value) (hn : vs.length < 2 ^ 64) :
    encode t p vs [] =
      toLE 8 0 ++ toLE 8 vs.length ++ entomb (.slice t) (.vslice p vs) := by
  simp only [encode, List.nil_append, rawImage]
  have hx : listExtract (toLE 8 p ++ toLE 8 vs.length) 8 16 = toLE 8 vs.length := by
    simp only [listExtract, show (16 : Nat) - 8 = 8 from rfl, drop8_word]
    exact take8_exact vs.length
  rw [hx, fromLE_toLE64 _ hn]
  have hw : listWriteAt (toLE 8 p ++ toLE 8 vs.length) 0
      (toLE 8 0 ++ toLE 8 vs.length ++ toLE 8 vs.length) =
      toLE 8 0 ++ toLE 8 vs.length := by
    simp only [listWriteAt, List.take_zero, List.nil_append, Nat.sub_zero, Nat.zero_add,
      List.length_append, toLE_length]
    rw [List.drop_eq_nil_of_le (by simp [toLE_length]), List.append_nil]
    have h16 : List.take 16 ((toLE 8 0 ++ toLE 8 vs.length) ++ toLE 8 vs.length) =
        toLE 8 0 ++ toLE 8 vs.length := by
      have := take_head (toLE 8 0 ++ toLE 8 vs.length) (toLE 8 vs.length)
      rwa [List.length_append, toLE_length, toLE_length] at this
    exact h16
  rw [hw]

/-! ### Decoding a fresh encoding -/

theorem decode_encode (t : Ty) (p : Nat) (vs : List Value)
    (h : hasTy (.slice t) (.vslice p vs) = true) :
    decode t (encode t p vs []) =
      .ok (exhumed (.slice t) (.vslice p vs) 16)
        (toLE 8 16 ++ toLE 8 vs.length ++ entombAfter (.slice t) (.vslice p vs) 16) := by
  have hh := h
  simp [hasTy, isPrim, and_assoc] at hh
  obtain ⟨hp, hn, hall⟩ := hh
  rw [encode_nil t p vs hn]
  simp only [decode, size_of]
  rw [if_neg (by simp [toLE_length]; omega)]
  have hrd : listExtract (toLE 8 0 ++ toLE 8 vs.length ++ entomb (.slice t) (.vslice p vs))
      0 16 = toLE 8 0 ++ toLE 8 vs.length := by
    simp only [listExtract, Nat.sub_zero, List.drop_zero]
    have := take_head (toLE 8 0 ++ toLE 8 vs.length) (entomb (.slice t) (.vslice p vs))
    rwa [List.length_append, toLE_length, toLE_length] at this
  rw [hrd]
  have hread : readValue (.slice t) (toLE 8 0 ++ toLE 8 vs.length) =
      skel (.slice t) (embalm (.slice t) (.vslice p vs)) := by
    simp only [readValue, skel, embalm, take8_word, drop8_word, take8_exact]
    rw [fromLE_toLE64 0 (by norm_num), fromLE_toLE64 _ hn]
  rw [hread]
  have hmain := exhume_entomb (.slice t) (.vslice p vs) h
    (toLE 8 0 ++ toLE 8 vs.length) []
  simp only [List.append_nil, List.length_append, toLE_length,
    show (8 : Nat) + 8 = 16 from rfl, List.append_assoc] at hmain
  simp only [List.append_assoc, hmain]
  have himg : rawImage (.slice t) (exhumed (.slice t) (.vslice p vs) 16) =
      toLE 8 16 ++ toLE 8 vs.length := by
    simp only [exhumed, rawImage, exhumedSeqGo_length]
  rw [himg]
  have hw := listWriteAt_append [] (toLE 8 0 ++ toLE 8 vs.length)
    (entombAfter (.slice t) (.vslice p vs) 16) (toLE 8 16 ++ toLE 8 vs.length)
    (by simp [toLE_length])
  simp only [List.nil_append, List.length_nil, List.append_assoc] at hw
  rw [hw]

/-! ### Decoding a truncated encoding fails with the error result -/

theorem decode_trunc (t : Ty) (p : Nat) (vs : List Value)
    (h : hasTy (.slice t) (.vslice p vs) = true)
    (L : Nat) (h16 : 16 ≤ L) (hlt : L < (encode t p vs []).length) :
    (decode t (List.take L (encode t p vs []))).isErr = true := by
  have hh := h
  simp [hasTy, isPrim, and_assoc] at hh
  obtain ⟨hp, hn, hall⟩ := hh
  rw [encode_nil t p vs hn] at hlt ⊢
  simp only [List.length_append, toLE_length] at hlt
  have htake : List.take L (toLE 8 0 ++ toLE 8 vs.length ++
      entomb (.slice t) (.vslice p vs)) =
      (toLE 8 0 ++ toLE 8 vs.length) ++
        (entomb (.slice t) (.vslice p vs)).take (L - 16) := by
    rw [List.take_append_eq_append_take,
      List.take_of_length_le (by simp [toLE_length]; omega)]
    simp [toLE_length]
  rw [htake]
  simp only [decode, size_of]
  rw [if_neg (by
    simp only [List.length_append, List.length_take, toLE_length]
    omega)]
  have hrd : listExtract ((toLE 8 0 ++ toLE 8 vs.length) ++
      (entomb (.slice t) (.vslice p vs)).take (L - 16)) 0 16 =
      toLE 8 0 ++ toLE 8 vs.length := by
    simp only [listExtract, Nat.sub_zero, List.drop_zero]
    have := take_head (toLE 8 0 ++ toLE 8 vs.length)
      ((entomb (.slice t) (.vslice p vs)).take (L - 16))
    rwa [List.length_append, toLE_length, toLE_length] at this
  rw [hrd]
  have hread : readValue (.slice t) (toLE 8 0 ++ toLE 8 vs.length) =
      skel (.slice t) (embalm (.slice t) (.vslice p vs)) := by
    simp only [readValue, skel, embalm, take8_word, drop8_word, take8_exact]
    rw [fromLE_toLE64 0 (by norm_num), fromLE_toLE64 _ hn]
  rw [hread]
  have hmain := exhume_trunc (.slice t) (.vslice p vs) h
    (toLE 8 0 ++ toLE 8 vs.length) (L - 16) (by omega)
  simp only [List.length_append, toLE_length, show (8 : Nat) + 8 = 16 from rfl] at hmain
  rcases hc : exhume (.slice t) (skel (.slice t) (embalm (.slice t) (.vslice p vs)))
      ((toLE 8 0 ++ toLE 8 vs.length) ++
        (entomb (.slice t) (.vslice p vs)).take (L - 16)) 16 with _ | _
  · rw [hc] at hmain
    simp [ExR.isErr] at hmain
  · simp [DecR.isErr]

/-! ### Re-encoding an exhumed element run reproduces its wire bytes -/

theorem seq_reencode (t1 : Ty) (es : List Value)
    (hall : ∀ e ∈ es, hasTy t1 e = true) : ∀ q : Nat,
    ((exhumedSeqGo (exhumed t1) (fun e => (entomb t1 e).length) es q).map
        (fun e => rawImage t1 (embalm t1 e))).flatten =
      ((es.map fun e => rawImage t1 (embalm t1 e)).flatten) ∧
    ((exhumedSeqGo (exhumed t1) (fun e => (entomb t1 e).length) es q).map
        (entomb t1)).flatten = ((es.map (entomb t1)).flatten) := by
  induction es with
  | nil => intro q; simp [exhumedSeqGo]
  | cons e es ihs =>
    intro q
    have he := exhumed_reencode t1 e (hall e (by simp)) q
    have hrest := ihs (fun x hx => hall x (by simp [hx])) (q + (entomb t1 e).length)
    simp [exhumedSeqGo, he.1, he.2, hrest.1, hrest.2]

/-! ## The claims -/

/-- Claim C1, counterexample: for the supported element type `Option<String>`
and the one-element sequence `[Some("7")]` (text byte 55 at heap address 7,
capacity 1), encoding into a fresh buffer and decoding succeeds but does
not yield an element-wise equal sequence: the text content is lost. -/
theorem c1_counterexample :
    decodeOkCheck (.option .str) 9 [.vsome (.vstr 7 1 [55])] = true ∧
      roundTripCheck (.option .str) 9 [.vsome (.vstr 7 1 [55])] = false := by
  constructor
  · rfl
  · rfl

/-- Claim C1, amended: for every supported element type T in which every
optional component wraps a heap-free type, and every machine-realizable
sequence of T, encoding into a fresh buffer and decoding succeeds and
yields an element-wise equal sequence.  (As stated over all supported T
the claim fails: see the counterexample at `Option<String>`.) -/
theorem c1_roundTrip (t : Ty) (p : Nat) (vs : List Value)
    (h : hasTy (.slice t) (.vslice p vs) = true)
    (hrt : roundTrippable t = true) :
    ∃ es buf, decode t (encode t p vs []) = .ok (.vslice 16 es) buf ∧
      es.length = vs.length ∧ eqSeqGo (eqData t) vs es = true := by
  refine ⟨exhumedSeqGo (exhumed t) (fun e => (entomb t e).length) vs
    (16 + vs.length * size_of t),
    toLE 8 16 ++ toLE 8 vs.length ++ entombAfter (.slice t) (.vslice p vs) 16,
    ?_, ?_, ?_⟩
  · have hd := decode_encode t p vs h
    simpa only [exhumed] using hd
  · exact exhumedSeqGo_length _ _ vs _
  · have he := eqData_exhumed (.slice t) (by simpa [roundTrippable] using hrt)
      (.vslice p vs) h 16
    simpa only [exhumed, eqData] using he

/-- Claim C1, witness for the amended theorem at T = String,
v = ["7"] (content byte 55). -/
theorem c1_roundTrip_witness :
    hasTy (.slice .str) (.vslice 3 [.vstr 5 9 [55]]) = true ∧
      roundTrippable .str = true ∧
      (∃ es buf, decode .str (encode .str 3 [.vstr 5 9 [55]] []) =
          .ok (.vslice 16 es) buf ∧
        es.length = 1 ∧ eqSeqGo (eqData .str) [.vstr 5 9 [55]] es = true) :=
  ⟨by decide, by decide, c1_roundTrip .str 3 [.vstr 5 9 [55]] (by decide) (by decide)⟩

/-- Claim C2, counterexample: truncating the valid encoding of `[5u64]`
(24 bytes) to 15 bytes, one short of the header, makes `decode` abort (the
`split_at_mut` panic), not return the insufficient-bytes error result. -/
theorem c2_counterexample :
    (decode .u64 (List.take 15 (encode .u64 0 [.word 5] []))).isFatal = true ∧
      (decode .u64 (List.take 15 (encode .u64 0 [.word 5] []))).isErr = false ∧
      15 < (encode .u64 0 [.word 5] []).length := by
  refine ⟨rfl, rfl, by decide⟩

/-- Claim C2, amended: truncating a valid fresh encoding to any length
that is strictly less than the full encoding but at least the 16-byte
header makes `decode` fail with the insufficient-bytes error result (never
a false success); truncations shorter than the header abort instead (see
the counterexample). -/
theorem c2_truncation (t : Ty) (p : Nat) (vs : List Value)
    (h : hasTy (.slice t) (.vslice p vs) = true)
    (L : Nat) (h16 : 16 ≤ L) (hlt : L < (encode t p vs []).length) :
    (decode t (List.take L (encode t p vs []))).isErr = true :=
  decode_trunc t p vs h L h16 hlt

/-- Claim C2, witness: the encoding of `[5u64]` is 24 bytes; decoding its
20-byte truncation returns the insufficient-bytes error. -/
theorem c2_truncation_witness :
    hasTy (.slice .u64) (.vslice 0 [.word 5]) = true ∧ 16 ≤ 20 ∧
      20 < (encode .u64 0 [.word 5] []).length ∧
      (decode .u64 (List.take 20 (encode .u64 0 [.word 5] []))).isErr = true :=
  ⟨by decide, by decide, by decide,
    c2_truncation .u64 0 [.word 5] (by decide) 20 (by decide) (by decide)⟩

/-- Claim C3: the `Option<T>` impl uses the default no-op `entomb`,
`embalm` and `exhume` (it never delegates into the wrapped value), and in
consequence the optional value `Some("78")` (an owned text buffer with
non-empty content) decodes successfully but without its text content. -/
theorem c3_option_noop_gap :
    (∀ (t1 : Ty) (v : Value), entomb (.option t1) v = [] ∧
      embalm (.option t1) v = v) ∧
    (∀ (t1 : Ty) (v : Value) (buf : Bytes) (pos : Nat),
      exhume (.option t1) v buf pos = .ok v buf pos) ∧
    decodeOkCheck (.option .str) 5 [.vsome (.vstr 9 2 [55, 56])] = true ∧
    roundTripCheck (.option .str) 5 [.vsome (.vstr 9 2 [55, 56])] = false := by
  refine ⟨fun t1 v => ?_, fun t1 v buf pos => ?_, rfl, rfl⟩
  · cases v <;> simp [entomb, embalm]
  · cases v <;> simp [exhume]

/-- Claim C4: the failing input.  With a non-empty initial buffer (24
bytes of value 7), `encode` of the empty `u64` sequence grows the buffer
by the 16-byte header but also rewrites the pre-existing bytes: the
transmute-at-index-0 embalm zeroes the first 8 bytes of the old contents
instead of the freshly written header's pointer word. -/
theorem c4_corrupts_prefix :
    List.take 24 (encode .u64 0 [] (List.replicate 24 7)) ≠ List.replicate 24 7 ∧
      List.take 8 (encode .u64 0 [] (List.replicate 24 7)) = List.replicate 8 0 ∧
      (encode .u64 0 [] (List.replicate 24 7)).length = 40 := by
  refine ⟨by decide, by decide, by decide⟩

/-- Claim C5: `embalm` on an owned growable sequence and on an owned text
buffer replaces the backing-storage pointer by the null placeholder and
the capacity by the length, keeping the declared length (and the contents
it counts) unchanged; the resulting raw image is null pointer, original
length, capacity equal to length. -/
theorem c5_embalm_placeholder (t1 : Ty) (p c q d : Nat) (es : List Value)
    (content : Bytes) :
    embalm (.vec t1) (.vvec p c es) = .vvec 0 es.length es ∧
      embalm .str (.vstr q d content) = .vstr 0 content.length content ∧
      rawImage (.vec t1) (embalm (.vec t1) (.vvec p c es)) =
        toLE 8 0 ++ toLE 8 es.length ++ toLE 8 es.length ∧
      rawImage .str (embalm .str (.vstr q d content)) =
        toLE 8 0 ++ toLE 8 content.length ++ toLE 8 content.length := by
  refine ⟨rfl, rfl, by simp [embalm, rawImage], by simp [embalm, rawImage]⟩

/-- The impl `Vec<T>::exhume` reads nothing from the stale vector but its declared
length: two vector values with equal element counts exhume identically. -/
theorem exhume_vec_len (t1 : Ty) (p c p' c' : Nat) (es es' : List Value)
    (h : es.length = es'.length) (buf : Bytes) (pos : Nat) :
    exhume (.vec t1) (.vvec p c es) buf pos =
      exhume (.vec t1) (.vvec p' c' es') buf pos := by
  simp only [exhume, h]

/-- Claim C6: `Vec<T>::exhume` on a vector whose declared length is `n`
computes `n * size_of::<T>()`; with fewer bytes remaining it fails
returning the remaining bytes (first conjunct, for every buffer); with the
entombed run of a live sequence `es` of the same length ahead it claims
exactly that prefix as the backing array (the reconstructed vector's
pointer is the claim position and its capacity is its length), then
exhumes the `n` elements in order threading the shrinking remainder
(second conjunct); and it fails whenever the run is truncated so that some
element's exhume fails (third conjunct). -/
theorem c6_vec_exhume (t1 : Ty) (p c : Nat) (es esHdr : List Value)
    (hlen : esHdr.length = es.length)
    (hn : es.length < 2 ^ 64)
    (hall : ∀ e ∈ es, hasTy t1 e = true) :
    (∀ (buf : Bytes) (pos : Nat), buf.length < pos + esHdr.length * size_of t1 →
      exhume (.vec t1) (.vvec p c esHdr) buf pos = .err buf pos) ∧
    (∀ (pre rest : Bytes),
      exhume (.vec t1) (.vvec p c esHdr)
          (pre ++ (entomb (.vec t1) (.vvec 0 0 es) ++ rest)) pre.length =
        .ok (.vvec pre.length es.length
              (exhumedSeqGo (exhumed t1) (fun e => (entomb t1 e).length) es
                (pre.length + es.length * size_of t1)))
          (pre ++ (entombAfter (.vec t1) (.vvec 0 0 es) pre.length ++ rest))
          (pre.length + (entomb (.vec t1) (.vvec 0 0 es)).length)) ∧
    (∀ (pre : Bytes) (k : Nat), k < (entomb (.vec t1) (.vvec 0 0 es)).length →
      (exhume (.vec t1) (.vvec p c esHdr)
        (pre ++ (entomb (.vec t1) (.vvec 0 0 es)).take k) pre.length).isErr = true) := by
  have hty : hasTy (.vec t1) (.vvec 0 0 es) = true := by
    simp only [hasTy, Bool.and_eq_true, decide_eq_true_eq, List.all_eq_true]
    refine ⟨⟨⟨by norm_num, by norm_num⟩, hn⟩, fun x hx => hall x hx⟩
  have hskel : skel (.vec t1) (embalm (.vec t1) (.vvec 0 0 es)) =
      .vvec 0 es.length (List.replicate es.length (.word 0)) := by
    simp [skel, embalm]
  refine ⟨fun buf pos hshort => ?_, fun pre rest => ?_, fun pre k hk => ?_⟩
  · simp only [exhume]
    rw [if_pos hshort]
  · rw [exhume_vec_len t1 p c 0 es.length esHdr (List.replicate es.length (.word 0))
      (by simp [hlen]) _ _]
    have := exhume_entomb (.vec t1) (.vvec 0 0 es) hty pre rest
    rwa [hskel, exhumed] at this
  · rw [exhume_vec_len t1 p c 0 es.length esHdr (List.replicate es.length (.word 0))
      (by simp [hlen]) _ _]
    have := exhume_trunc (.vec t1) (.vvec 0 0 es) hty pre k hk
    rwa [hskel] at this

/-- Claim C6, witness at T = String with one live element "A" (byte 65)
and a stale header value of matching length 1: the failure conjunct at an
empty buffer and the success conjunct at an exact region. -/
theorem c6_vec_exhume_witness :
    ((1 : Nat) = 1 ∧ 1 < 2 ^ 64 ∧ hasTy .str (.vstr 5 9 [65]) = true) ∧
      exhume (.vec .str) (.vvec 7 8 [.word 0]) [] 0 = .err [] 0 := by
  refine ⟨⟨rfl, by decide, by decide⟩, ?_⟩
  have h := (c6_vec_exhume .str 7 8 [.vstr 5 9 [65]] [.word 0] (by decide) (by decide)
    (by decide)).1 [] 0 (by decide)
  exact h

/-- Claim C7: `String::exhume` with declared length `n` fails, returning
the remaining bytes, exactly when fewer than `n` bytes remain; on success
it consumes exactly the first `n` remaining bytes, points the string at
that prefix with capacity = length = `n`, and returns the unconsumed
suffix position. -/
theorem c7_string_exhume (p c : Nat) (content buf : Bytes) (pos : Nat)
    (hpos : pos ≤ buf.length) :
    ((exhume .str (.vstr p c content) buf pos).isErr = true ↔
      buf.length - pos < content.length) ∧
    (content.length ≤ buf.length - pos →
      exhume .str (.vstr p c content) buf pos =
        .ok (.vstr pos content.length (listExtract buf pos (pos + content.length)))
          buf (pos + content.length) ∧
      (listExtract buf pos (pos + content.length)).length = content.length) := by
  constructor
  · by_cases hc : buf.length < pos + content.length
    · simp only [exhume, if_pos hc, ExR.isErr]
      constructor
      · intro _; omega
      · intro _; trivial
    · simp only [exhume, if_neg hc, ExR.isErr]
      constructor
      · intro hfalse; cases hfalse
      · intro hlt; omega
  · intro hle
    constructor
    · simp only [exhume, if_neg (by omega : ¬buf.length < pos + content.length)]
    · simp only [listExtract, List.length_take, List.length_drop]
      omega

/-- Claim C7, witness: exhuming a 2-byte string at position 1 of a 4-byte
buffer claims bytes 1..3 and leaves position 3. -/
theorem c7_string_exhume_witness :
    (1 : Nat) ≤ 4 ∧
      (((exhume .str (.vstr 9 9 [55, 56]) [1, 2, 3, 4] 1).isErr = true ↔
        (4 : Nat) - 1 < 2) ∧
      ((2 : Nat) ≤ 4 - 1 →
        exhume .str (.vstr 9 9 [55, 56]) [1, 2, 3, 4] 1 =
          .ok (.vstr 1 2 (listExtract [1, 2, 3, 4] 1 3)) [1, 2, 3, 4] 3 ∧
        (listExtract [1, 2, 3, 4] 1 3).length = 2)) :=
  ⟨by decide, c7_string_exhume 9 9 [55, 56] [1, 2, 3, 4] 1 (by decide)⟩

/-- Claim C8: encoding a machine-realizable sequence into a fresh buffer,
decoding it, and re-encoding the decoded reference into another fresh
buffer (under any slice address `q`) yields output byte-identical to the
original encoding. -/
theorem c8_reencode (t : Ty) (p q : Nat) (vs : List Value)
    (h : hasTy (.slice t) (.vslice p vs) = true) :
    ∃ es buf, decode t (encode t p vs []) = .ok (.vslice 16 es) buf ∧
      encode t q es [] = encode t p vs [] := by
  have hh := h
  simp [hasTy, isPrim, and_assoc] at hh
  obtain ⟨hp, hn, hall⟩ := hh
  refine ⟨exhumedSeqGo (exhumed t) (fun e => (entomb t e).length) vs
    (16 + vs.length * size_of t),
    toLE 8 16 ++ toLE 8 vs.length ++ entombAfter (.slice t) (.vslice p vs) 16,
    ?_, ?_⟩
  · have hd := decode_encode t p vs h
    simpa only [exhumed] using hd
  · have hlen := exhumedSeqGo_length (exhumed t) (fun e => (entomb t e).length) vs
      (16 + vs.length * size_of t)
    rw [encode_nil t q _ (by rw [hlen]; exact hn), encode_nil t p vs hn, hlen]
    have hsr := seq_reencode t vs hall (16 + vs.length * size_of t)
    simp only [entomb, hsr.1, hsr.2]

/-- Claim C8, witness at T = (u64, String) with the sequence
[(5, "A"), (6, "")] from the nested-ownership family. -/
theorem c8_reencode_witness :
    hasTy (.slice (.pair .u64 .str)) (.vslice 3
        [.vpair (.word 5) (.vstr 7 1 [65]), .vpair (.word 6) (.vstr 8 0 [])]) = true ∧
      (∃ es buf, decode (.pair .u64 .str) (encode (.pair .u64 .str) 3
            [.vpair (.word 5) (.vstr 7 1 [65]), .vpair (.word 6) (.vstr 8 0 [])] []) =
          .ok (.vslice 16 es) buf ∧
        encode (.pair .u64 .str) 21 es [] = encode (.pair .u64 .str) 3
          [.vpair (.word 5) (.vstr 7 1 [65]), .vpair (.word 6) (.vstr 8 0 [])] []) :=
  ⟨by decide, c8_reencode (.pair .u64 .str) 3 21
    [.vpair (.word 5) (.vstr 7 1 [65]), .vpair (.word 6) (.vstr 8 0 [])] (by decide)⟩

/-- Claim C9: for every supported element type T and every slice address,
encoding the empty sequence into a fresh buffer produces exactly the
16-byte zero-element header (the size of the `&[T]` descriptor) and
nothing more, and decoding it succeeds with the empty sequence. -/
theorem c9_empty (t : Ty) (p : Nat) :
    encode t p [] [] = toLE 8 0 ++ toLE 8 0 ∧
      (encode t p [] []).length = size_of (.slice t) ∧
      decode t (encode t p [] []) = .ok (.vslice 16 []) (toLE 8 16 ++ toLE 8 0) := by
  have henc : encode t p [] [] = toLE 8 0 ++ toLE 8 0 := by
    rw [encode_nil t p [] (by norm_num)]
    simp [entomb]
  have henc0 : encode t 0 [] [] = toLE 8 0 ++ toLE 8 0 := by
    rw [encode_nil t 0 [] (by norm_num)]
    simp [entomb]
  refine ⟨henc, by simp [henc, toLE_length, size_of], ?_⟩
  have hty : hasTy (.slice t) (.vslice 0 []) = true := by
    norm_num [hasTy]
  have hd := decode_encode t 0 [] hty
  rw [henc, ← henc0] at *
  rw [hd]
  simp [exhumed, exhumedSeqGo, entombAfter, threadGo]

theorem threadGo_const_length (sz : Nat) (f : Value → Nat → Bytes) (elenF : Value → Nat)
    (h : ∀ e p, (f e p).length = sz) (es : List Value) :
    ∀ pos, (threadGo f elenF es pos).length = es.length * sz := by
  induction es with
  | nil => intro pos; simp [threadGo]
  | cons e es ih =>
    intro pos
    simp [threadGo, h, ih, Nat.succ_mul]
    omega

theorem threadGo_aft_length (aft : Value → Nat → Bytes) (entF : Value → Bytes)
    (haft : ∀ e p, (aft e p).length = (entF e).length) (es : List Value) :
    ∀ pos, (threadGo aft (fun e => (entF e).length) es pos).length =
      ((es.map entF).flatten).length := by
  induction es with
  | nil => intro pos; simp [threadGo]
  | cons e es ih => intro pos; simp [threadGo, haft, ih]

/-! ### The element loop on an already-decoded region is a fixpoint -/

theorem seqGo_ok2 (sz : Nat) (rdV : Bytes → Value) (img : Value → Bytes)
    (ex : Value → Bytes → Nat → ExR)
    (entF : Value → Bytes) (exd : Value → Nat → Value) (aft : Value → Nat → Bytes)
    (hsz : ∀ e p, (img (exd e p)).length = sz)
    (haft : ∀ e p, (aft e p).length = (entF e).length) :
    ∀ (es : List Value),
      (∀ e ∈ es, ∀ (pre rest : Bytes),
        pre.length + (entF e).length < 2 ^ 64 →
        ex (rdV (img (exd e pre.length))) (pre ++ (aft e pre.length ++ rest))
            pre.length =
          .ok (exd e pre.length) (pre ++ (aft e pre.length ++ rest))
            (pre.length + (entF e).length)) →
      ∀ (A B rest : Bytes) (pos : Nat),
      pos = A.length + es.length * sz + B.length →
      pos + ((es.map entF).flatten).length < 2 ^ 64 →
      exhumeSeqGo sz rdV img ex es.length
          (A ++ threadGo (fun e p => img (exd e p)) (fun e => (entF e).length) es pos ++
            B ++ threadGo aft (fun e => (entF e).length) es pos ++ rest)
          A.length pos =
        .ok (exhumedSeqGo exd (fun e => (entF e).length) es pos)
          (A ++ threadGo (fun e p => img (exd e p)) (fun e => (entF e).length) es pos ++
            B ++ threadGo aft (fun e => (entF e).length) es pos ++ rest)
          (pos + ((es.map entF).flatten).length) := by
  intro es
  induction es with
  | nil =>
    intro hex A B rest pos hpos hbound
    simp [exhumeSeqGo, exhumedSeqGo, threadGo]
  | cons e es ih =>
    intro hex A B rest pos hpos hbound
    simp only [List.length_cons, Nat.succ_mul] at hpos
    simp only [List.map_cons, List.flatten_cons, List.length_append] at hbound
    simp only [threadGo, exhumedSeqGo, List.length_cons, List.append_assoc]
    have hslot : listExtract
        (A ++ (img (exd e pos) ++ (threadGo (fun e p => img (exd e p))
            (fun e => (entF e).length) es (pos + (entF e).length) ++ (B ++
          (aft e pos ++ (threadGo aft (fun e => (entF e).length) es
            (pos + (entF e).length) ++ rest))))))
        A.length (A.length + sz) = img (exd e pos) := by
      have h := listExtract_append A (img (exd e pos))
        (threadGo (fun e p => img (exd e p)) (fun e => (entF e).length) es
            (pos + (entF e).length) ++ (B ++
          (aft e pos ++ (threadGo aft (fun e => (entF e).length) es
            (pos + (entF e).length) ++ rest))))
      rwa [hsz e pos] at h
    have hexe := hex e (by simp)
      (A ++ (img (exd e pos) ++ (threadGo (fun e p => img (exd e p))
          (fun e => (entF e).length) es (pos + (entF e).length) ++ B)))
      (threadGo aft (fun e => (entF e).length) es (pos + (entF e).length) ++ rest)
    simp only [List.append_assoc, List.length_append, hsz,
      threadGo_const_length sz (fun e p => img (exd e p)) (fun e => (entF e).length)
        hsz es] at hexe
    have hp1 : A.length + (sz + (es.length * sz + B.length)) = pos := by omega
    rw [hp1] at hexe
    have hexe2 := hexe (by omega)
    simp only [exhumeSeqGo, hslot, hexe2]
    have hwrite := listWriteAt_eq_self A (img (exd e pos))
      (threadGo (fun e p => img (exd e p)) (fun e => (entF e).length) es
          (pos + (entF e).length) ++ (B ++
        (aft e pos ++ (threadGo aft (fun e => (entF e).length) es
          (pos + (entF e).length) ++ rest))))
    simp only [List.append_assoc] at hwrite
    rw [hwrite]
    have hpos' : pos + (entF e).length =
        (A ++ img (exd e pos)).length + es.length * sz + (B ++ aft e pos).length := by
      simp only [List.length_append, hsz, haft]
      omega
    have ihres := ih (fun x hx pre rest2 hb2 => hex x (by simp [hx]) pre rest2 hb2)
      (A ++ img (exd e pos)) (B ++ aft e pos) rest (pos + (entF e).length) hpos'
      (by omega)
    simp only [List.append_assoc, List.length_append, hsz] at ihres
    rw [show A.length + sz = (A ++ img (exd e pos)).length by simp [hsz]]
    simp only [List.length_append, hsz] at ihres ⊢
    rw [ihres]
    simp only [List.map_cons, List.flatten_cons, List.length_append, List.append_assoc,
      Nat.add_assoc]

/-! ### Exhuming an already-decoded region is the identity -/

theorem exhume_after (t : Ty) :
    ∀ v, hasTy t v = true → ∀ (pre rest : Bytes),
      pre.length + (entomb t v).length < 2 ^ 64 →
      exhume t (skel t (exhumed t v pre.length))
          (pre ++ (entombAfter t v pre.length ++ rest)) pre.length =
        .ok (exhumed t v pre.length) (pre ++ (entombAfter t v pre.length ++ rest))
          (pre.length + (entomb t v).length) := by
  induction t with
  | pair t1 t2 ih1 ih2 =>
    intro v hv pre rest hb
    cases v <;> simp [hasTy, isPrim, and_assoc] at hv
    rename_i a b
    simp only [entomb, List.length_append] at hb
    simp only [exhumed, skel, entomb, entombAfter, exhume, List.append_assoc]
    have h1 := ih1 a hv.1 pre
      (entombAfter t2 b (pre.length + (entomb t1 a).length) ++ rest) (by omega)
    simp only [List.append_assoc] at h1
    simp only [h1]
    have h2 := ih2 b hv.2 (pre ++ entombAfter t1 a pre.length) rest
    have hlen1 : (pre ++ entombAfter t1 a pre.length).length =
        pre.length + (entomb t1 a).length := by
      simp [entombAfter_length]
    rw [hlen1] at h2
    have h2b := h2 (by omega)
    simp only [List.append_assoc] at h2b
    simp only [h2b, List.length_append, Nat.add_assoc]
  | option t1 ih =>
    intro v hv pre rest hb
    cases v <;> simp [hasTy, isPrim, and_assoc] at hv <;>
      simp [exhumed, skel, entomb, entombAfter, exhume, skel_skel]
  | str =>
    intro v hv pre rest hb
    cases v <;> simp [hasTy, isPrim, and_assoc] at hv
    rename_i p c content
    simp only [exhumed, skel, entomb, entombAfter, exhume, List.length_replicate,
      List.length_append]
    rw [if_neg (by omega)]
    have hx := listExtract_append pre content rest
    simp only [List.append_assoc] at hx
    rw [hx]
  | vec t1 ih =>
    intro v hv pre rest hb
    cases v <;> simp [hasTy, isPrim, and_assoc] at hv
    rename_i p c es
    obtain ⟨-, -, hn, hall⟩ := hv
    simp only [entomb, List.length_append] at hb
    have himgs := images_flatten_length t1 (embalm t1) es
    have hthr := threadGo_const_length (size_of t1)
      (fun e q => rawImage t1 (exhumed t1 e q)) (fun e => (entomb t1 e).length)
      (fun e q => rawImage_length t1 _) es
    simp only [exhumed, skel, entomb, entombAfter, exhume, List.length_replicate,
      exhumedSeqGo_length, List.append_assoc]
    rw [if_neg (by
      simp only [List.length_append, hthr]
      omega)]
    have hex2 : ∀ e ∈ es, ∀ (pre2 rest2 : Bytes),
        pre2.length + (entomb t1 e).length < 2 ^ 64 →
        exhume t1 (readValue t1 (rawImage t1 (exhumed t1 e pre2.length)))
            (pre2 ++ (entombAfter t1 e pre2.length ++ rest2)) pre2.length =
          .ok (exhumed t1 e pre2.length)
            (pre2 ++ (entombAfter t1 e pre2.length ++ rest2))
            (pre2.length + (entomb t1 e).length) := by
      intro e he pre2 rest2 hb2
      rw [readValue_rawImage t1 _ (imgWF_exhumed t1 e (hall e he) pre2.length hb2)]
      exact ih e (hall e he) pre2 rest2 hb2
    have hflat : ((es.map fun e => rawImage t1 (embalm t1 e)).flatten).length =
        es.length * size_of t1 := himgs
    have hseq := seqGo_ok2 (size_of t1) (readValue t1) (rawImage t1) (exhume t1)
      (entomb t1) (exhumed t1) (entombAfter t1)
      (fun e q => rawImage_length t1 _)
      (fun e q => entombAfter_length t1 e q) es hex2 pre []
      rest (pre.length + es.length * size_of t1) (by simp) (by omega)
    simp only [List.append_assoc, List.append_nil, List.nil_append] at hseq
    simp only [hseq, List.length_append, hthr, himgs, Nat.add_assoc]
  | slice t1 ih =>
    intro v hv pre rest hb
    cases v <;> simp [hasTy, isPrim, and_assoc] at hv
    rename_i p es
    obtain ⟨-, hn, hall⟩ := hv
    simp only [entomb, List.length_append] at hb
    have himgs := images_flatten_length t1 (embalm t1) es
    have hthr := threadGo_const_length (size_of t1)
      (fun e q => rawImage t1 (exhumed t1 e q)) (fun e => (entomb t1 e).length)
      (fun e q => rawImage_length t1 _) es
    simp only [exhumed, skel, entomb, entombAfter, exhume, List.length_replicate,
      exhumedSeqGo_length, List.append_assoc]
    rw [if_neg (by
      simp only [List.length_append, hthr]
      omega)]
    have hex2 : ∀ e ∈ es, ∀ (pre2 rest2 : Bytes),
        pre2.length + (entomb t1 e).length < 2 ^ 64 →
        exhume t1 (readValue t1 (rawImage t1 (exhumed t1 e pre2.length)))
            (pre2 ++ (entombAfter t1 e pre2.length ++ rest2)) pre2.length =
          .ok (exhumed t1 e pre2.length)
            (pre2 ++ (entombAfter t1 e pre2.length ++ rest2))
            (pre2.length + (entomb t1 e).length) := by
      intro e he pre2 rest2 hb2
      rw [readValue_rawImage t1 _ (imgWF_exhumed t1 e (hall e he) pre2.length hb2)]
      exact ih e (hall e he) pre2 rest2 hb2
    have hseq := seqGo_ok2 (size_of t1) (readValue t1) (rawImage t1) (exhume t1)
      (entomb t1) (exhumed t1) (entombAfter t1)
      (fun e q => rawImage_length t1 _)
      (fun e q => entombAfter_length t1 e q) es hex2 pre []
      rest (pre.length + es.length * size_of t1) (by simp) (by omega)
    simp only [List.append_assoc, List.append_nil, List.nil_append] at hseq
    simp only [hseq, List.length_append, hthr, himgs, Nat.add_assoc]
  | u8 | u16 | u32 | u64 | i8 | i16 | i32 | i64 | f32 | f64 | boolT =>
    intro v hv pre rest hb
    cases v <;> simp [hasTy, isPrim, and_assoc] at hv <;>
      simp [exhumed, skel, entomb, entombAfter, exhume]

/-- Claim C10: decoding is repeatable.  Decoding a fresh encoding succeeds
and mutates the buffer in place (patching the header and the element
images); decoding that already-decoded, otherwise unmutated buffer again
succeeds, returns the very same value (in particular an element-wise equal
sequence), and leaves the buffer unchanged — because `exhume` derives
every reference from the declared lengths and the remaining bytes, never
from the stale reference words. -/
theorem c10_decode_idem (t : Ty) (p : Nat) (vs : List Value)
    (h : hasTy (.slice t) (.vslice p vs) = true)
    (hb : (encode t p vs []).length < 2 ^ 64) :
    ∃ v1 b1, decode t (encode t p vs []) = .ok v1 b1 ∧ decode t b1 = .ok v1 b1 := by
  have hh := h
  simp [hasTy, isPrim, and_assoc] at hh
  obtain ⟨hp, hn, hall⟩ := hh
  refine ⟨exhumed (.slice t) (.vslice p vs) 16,
    toLE 8 16 ++ toLE 8 vs.length ++ entombAfter (.slice t) (.vslice p vs) 16,
    decode_encode t p vs h, ?_⟩
  have hb2 : 16 + (entomb (.slice t) (.vslice p vs)).length < 2 ^ 64 := by
    rw [encode_nil t p vs hn] at hb
    simp only [List.length_append, toLE_length] at hb
    omega
  simp only [decode, size_of]
  rw [if_neg (by simp [toLE_length]; omega)]
  have hrd : listExtract (toLE 8 16 ++ toLE 8 vs.length ++
      entombAfter (.slice t) (.vslice p vs) 16) 0 16 =
      toLE 8 16 ++ toLE 8 vs.length := by
    simp only [listExtract, Nat.sub_zero, List.drop_zero]
    have := take_head (toLE 8 16 ++ toLE 8 vs.length)
      (entombAfter (.slice t) (.vslice p vs) 16)
    rwa [List.length_append, toLE_length, toLE_length] at this
  rw [hrd]
  have hread : readValue (.slice t) (toLE 8 16 ++ toLE 8 vs.length) =
      skel (.slice t) (exhumed (.slice t) (.vslice p vs) 16) := by
    simp only [readValue, skel, exhumed, take8_word, drop8_word, take8_exact,
      exhumedSeqGo_length]
    rw [fromLE_toLE64 16 (by norm_num), fromLE_toLE64 _ hn]
  rw [hread]
  have hmain := exhume_after (.slice t) (.vslice p vs) h
    (toLE 8 16 ++ toLE 8 vs.length) [] (by
      simp only [List.length_append, toLE_length]
      omega)
  simp only [List.append_nil, List.length_append, toLE_length,
    show (8 : Nat) + 8 = 16 from rfl, List.append_assoc] at hmain
  simp only [List.append_assoc, hmain]
  have himg : rawImage (.slice t) (exhumed (.slice t) (.vslice p vs) 16) =
      toLE 8 16 ++ toLE 8 vs.length := by
    simp only [exhumed, rawImage, exhumedSeqGo_length]
  rw [himg]
  have hw := listWriteAt_append [] (toLE 8 16 ++ toLE 8 vs.length)
    (entombAfter (.slice t) (.vslice p vs) 16) (toLE 8 16 ++ toLE 8 vs.length) rfl
  simp only [List.nil_append, List.length_nil, List.append_assoc] at hw
  rw [hw]

/-- Claim C10, witness: the encoding of the one-string sequence ["7"] is
41 bytes; applying the theorem at it yields a value and a post-decode
buffer on which decode is repeatable. -/
theorem c10_decode_idem_witness :
    hasTy (.slice .str) (.vslice 3 [.vstr 5 9 [55]]) = true ∧
      (encode .str 3 [.vstr 5 9 [55]] []).length < 2 ^ 64 ∧
      (∃ v1 b1, decode .str (encode .str 3 [.vstr 5 9 [55]] []) = .ok v1 b1 ∧
        decode .str b1 = .ok v1 b1) :=
  ⟨by decide, by decide,
    c10_decode_idem .str 3 [.vstr 5 9 [55]] (by decide) (by decide)⟩
end Abomonation
